import Mathlib

/-!
Verification of the tonpere advent-calendar core: the fair-distribution
allocator of scripts/generate-calendar.js and the date-gating logic of the
calendar endpoint in server.js and its earlier variant.

The JavaScript is embedded shallowly: Math.random is replaced by explicit
random-source parameters (an index choice per Fisher-Yates step, a numeric
tie-break rank per slot), mutation by state passing, and thrown errors by
an Except value. Every definition mirrors a function of the source; the
few definitions written from the wording of the specification instead are
named with a spec prefix and documented as such.
-/

namespace Tonpere

/-- One record of submissions.json as the generator reads it: a raw name and
a raw list of video links. -/
structure Submission where
  name : String
  videos : List String
  deriving Repr

/-- Whitespace as the trim of JavaScript strips it; the ASCII whitespace
characters suffice for the strings this application stores. -/
def jsWhitespace (c : Char) : Bool :=
  c = ' ' || c = '\t' || c = '\n' || c = '\r' || c = '\x0b' || c = '\x0c'

/-- The trim of a JavaScript string: leading and trailing whitespace
removed. Written on the character list so that it evaluates by structural
recursion. -/
def jsTrim (s : String) : String :=
  ⟨((s.data.dropWhile jsWhitespace).reverse.dropWhile jsWhitespace).reverse⟩

/-- Cleaning applied to the videos of one submission in buildPools:
trim each entry, keep those of positive length. -/
def cleanedVideos (sub : Submission) : List String :=
  (sub.videos.map jsTrim).filter (fun v => 0 < v.length)

/-- Lookup in an association list, mirroring Map.get of JavaScript. -/
def mapGet (m : List (String × List String)) (k : String) : Option (List String) :=
  (m.find? (fun p => p.1 == k)).map (fun p => p.2)

/-- Map.set of JavaScript on an association list: an existing key keeps its
position and gets the new value, a new key is appended at the end. -/
def mapSet (m : List (String × List String)) (k : String) (v : List String) :
    List (String × List String) :=
  if m.any (fun p => p.1 == k) then
    m.map (fun p => if p.1 == k then (k, v) else p)
  else
    m ++ [(k, v)]

/-- One iteration of the grouping loop of buildPools: trim the name, skip
an empty name, clean the videos, skip an empty list, and concatenate onto
the queue already held for that name. -/
def poolStep (m : List (String × List String)) (sub : Submission) :
    List (String × List String) :=
  let name := jsTrim sub.name
  if name = "" then m
  else
    let cleaned := cleanedVideos sub
    if cleaned = [] then m
    else mapSet m name ((mapGet m name).getD [] ++ cleaned)

/-- The grouping loop of buildPools before shuffling, over the whole
submissions list. -/
def buildPoolsRaw (subs : List Submission) : List (String × List String) :=
  subs.foldl poolStep []

/-- Swap of two positions of a list, as the destructuring assignment inside
the Fisher-Yates loop performs on the array. -/
def listSwap (l : List String) (i j : Nat) : List String :=
  match l[i]?, l[j]? with
  | some a, some b => (l.set i b).set j a
  | _, _ => l

/-- The Fisher-Yates loop of shuffle, counting i down: at step i the random
source r yields an index and the code uses floor(random * (i + 1)), a value
in 0..i, here r i % (i + 1). -/
def fyAux (r : Nat → Nat) : Nat → List String → List String
  | 0, l => l
  | i + 1, l => fyAux r i (listSwap l (i + 1) (r (i + 1) % (i + 2)))

/-- shuffle of generate-calendar.js on a list, with the random draws made
explicit: one index per loop step. -/
def shuffle (r : Nat → Nat) (l : List String) : List String :=
  fyAux r (l.length - 1) l

/-- buildPools: group the cleaned links by trimmed submitter name, then
shuffle the queue of each submitter. The source draws every shuffle from one
global random stream; the embedding passes each submitter its own stream,
which realizes every outcome the source can produce. -/
def buildPools (subs : List Submission) (r : String → Nat → Nat) :
    List (String × List String) :=
  (buildPoolsRaw subs).map (fun p => (p.1, shuffle (r p.1) p.2))

/-- countTotalLinks: sum of the queue lengths over the pool. -/
def countTotalLinks (pool : List (String × List String)) : Nat :=
  (pool.map (fun p => p.2.length)).sum

/-- The three failure modes of generateCalendar: the sub-three-submitters
check, the global link-count check, and a day that cannot be filled. -/
inductive GenError where
  | insufficientSubmitters
  | insufficientLinks
  | dayFill (day : Nat)
  deriving Repr, DecidableEq

/-- One calendar slot as written to calendar.json. -/
structure DaySlot where
  url : String
  submitterName : String
  deriving Repr, DecidableEq

/-- The generated calendar: day number to its list of slots, in day order. -/
abbrev Schedule := List (Nat × List DaySlot)

/-- Strict comparison of (usedCount, tie-break rank) pairs: the comparator
of getNextSubmitter orders first by usage count, and the random tie-break is
realized by comparing the tie ranks the random source assigned. -/
def keyLt (p q : Nat × Nat) : Bool :=
  p.1 < q.1 || (p.1 == q.1 && p.2 < q.2)

/-- Head of the candidates after the sort of getNextSubmitter: the first
element whose key no later element strictly beats, i.e. candidates[0] of a
sort by usage count with the tie-break ranks deciding equal counts. -/
def pickMin (key : String → Nat × Nat) : List String → Option String
  | [] => none
  | s :: rest =>
    match pickMin key rest with
    | none => some s
    | some t => if keyLt (key t) (key s) then some t else some s

/-- getNextSubmitter: filter the submitters to those not excluded for the
day and holding a non-empty queue, then take the least by usage count with
the tie rank tb breaking equal counts. -/
def getNextSubmitter (subm : List String) (pool : String → List String)
    (used : String → Nat) (tb : String → Nat) (excluded : List String) :
    Option String :=
  pickMin (fun s => (used s, tb s))
    (subm.filter (fun s => !(decide (s ∈ excluded)) && !(decide (pool s = []))))

/-- The inner slot loop of a day: n slots remain, k is the global slot index
feeding the per-slot tie ranks, excluded collects the submitters already
chosen for the day. Each step picks a submitter, shifts the head of its
queue into the slot, and bumps its usage count. A missing candidate aborts
the day; the empty-queue branch of the match is unreachable because the
filter already demands a non-empty queue. -/
def fillSlots (subm : List String) (tb : Nat → String → Nat) :
    Nat → Nat → (String → List String) → (String → Nat) → List String →
    Option (List DaySlot × (String → List String) × (String → Nat))
  | _, 0, pool, used, _ => some ([], pool, used)
  | k, n + 1, pool, used, excluded =>
    match getNextSubmitter subm pool used (tb k) excluded with
    | none => none
    | some s =>
      match pool s with
      | [] => none
      | url :: _ =>
        match fillSlots subm tb (k + 1) n
            (fun t => if t = s then (pool t).tail else pool t)
            (fun t => if t = s then used t + 1 else used t)
            (excluded ++ [s]) with
        | none => none
        | some (slots, p2, u2) => some (⟨url, s⟩ :: slots, p2, u2)

/-- The day loop of generateCalendar: rem days remain, d is the current day
number; each day fills three slots starting from an empty chosen set, and a
day that cannot be filled raises dayFill d. -/
def runDays (subm : List String) (tb : Nat → String → Nat) :
    Nat → Nat → (String → List String) → (String → Nat) →
    Except GenError Schedule
  | 0, _, _, _ => .ok []
  | rem + 1, d, pool, used =>
    match fillSlots subm tb ((d - 1) * 3) 3 pool used [] with
    | none => .error (.dayFill d)
    | some (slots, p2, u2) =>
      match runDays subm tb rem (d + 1) p2 u2 with
      | .error e => .error e
      | .ok sched => .ok ((d, slots) :: sched)

/-- Body of generateCalendar once the pool is built: the two admission
checks in source order, then the day loop over days 1..days with all usage
counts zero. -/
def genFromPool (pool0 : List (String × List String)) (tb : Nat → String → Nat)
    (days : Nat) : Except GenError Schedule :=
  let subm := pool0.map (fun p => p.1)
  if subm.length < 3 then .error .insufficientSubmitters
  else if countTotalLinks pool0 < days * 3 then .error .insufficientLinks
  else runDays subm tb days 1 (fun s => (mapGet pool0 s).getD []) (fun _ => 0)

/-- generateCalendar of generate-calendar.js: build the shuffled pool from
the submissions and run the checks and the day loop. r feeds the
per-submitter shuffles, tb the per-slot tie-break ranks, days is
REQUIRED_DAYS (24 by default in the script). -/
def generateCalendar (subs : List Submission) (r : String → Nat → Nat)
    (tb : Nat → String → Nat) (days : Nat) : Except GenError Schedule :=
  genFromPool (buildPools subs r) tb days

/-- The submitter names of the built pool, i.e. Array.from(pool.keys()). -/
def submittersOf (subs : List Submission) : List String :=
  (buildPoolsRaw subs).map (fun p => p.1)

/-- The shuffled queue a submitter starts the allocation with. -/
def initQueue (subs : List Submission) (r : String → Nat → Nat) (s : String) :
    List String :=
  (mapGet (buildPools subs r) s).getD []

/-- The cleaned, unshuffled pool of a submitter: its original candidate
links in submission order. -/
def rawQueue (subs : List Submission) (s : String) : List String :=
  (mapGet (buildPoolsRaw subs) s).getD []

/-- The allocation state the day loop threads: remaining queues and usage
counts, both total functions over names. -/
abbrev AllocState := (String → List String) × (String → Nat)

/-- The initial allocation state of a run. -/
def initState (subs : List Submission) (r : String → Nat → Nat) : AllocState :=
  (fun s => initQueue subs r s, fun _ => 0)

/-- Effect of assigning one slot on the allocation state: the chosen
submitter loses the head of its queue and gains one usage count. -/
def applySlot (st : AllocState) (sl : DaySlot) : AllocState :=
  (fun t => if t = sl.submitterName then (st.1 t).tail else st.1 t,
   fun t => if t = sl.submitterName then st.2 t + 1 else st.2 t)

/-- All slots of a schedule in assignment order, across days. -/
def allSlots (sched : Schedule) : List DaySlot :=
  (sched.map (fun p => p.2)).flatten

/-- The links a schedule fragment assigns to one submitter, in order. -/
def assignedUrls (slots : List DaySlot) (s : String) : List String :=
  (slots.filter (fun sl => sl.submitterName = s)).map (fun sl => sl.url)

/-- Usage counts over the submitter list differ by at most one. -/
def spreadLe1 (subm : List String) (used : String → Nat) : Prop :=
  ∀ s ∈ subm, ∀ t ∈ subm, used s ≤ used t + 1

/-- How many submitters currently hold a non-empty queue. -/
def numWithLinks (subm : List String) (pool : String → List String) : Nat :=
  (subm.filter (fun s => !(decide (pool s = [])))).length

/-- Mid-day balance invariant: with ex the submitters already chosen this
day, counts outside ex spread by at most one, every chosen count is within
one above any unchosen count, every unchosen count is at most any chosen
count, and chosen counts spread by at most one. -/
def invMid (subm : List String) (used : String → Nat) (ex : List String) : Prop :=
  (∀ s ∈ subm, s ∉ ex → ∀ t ∈ subm, t ∉ ex → used s ≤ used t + 1) ∧
  (∀ x ∈ ex, ∀ s ∈ subm, s ∉ ex → used x ≤ used s + 1) ∧
  (∀ s ∈ subm, s ∉ ex → ∀ x ∈ ex, used s ≤ used x) ∧
  (∀ x ∈ ex, ∀ y ∈ ex, used x ≤ used y + 1)

instance (subm : List String) (used : String → Nat) :
    Decidable (spreadLe1 subm used) :=
  inferInstanceAs (Decidable (∀ s ∈ subm, ∀ t ∈ subm, used s ≤ used t + 1))

/-- All-or-nothing shape of an allocation result: an error carries no
schedule at all, a success carries a complete schedule of days 1..days with
three distinct-submitter slots per day. -/
def allOrNothing (days : Nat) : Except GenError Schedule → Prop
  | .error _ => True
  | .ok sched =>
    sched.map (fun p => p.1) = List.range' 1 days ∧
      ∀ p ∈ sched, p.2.length = 3 ∧ (p.2.map (fun sl => sl.submitterName)).Nodup

/-- Names eligible per the admission check, written from the words of the
specification: distinct submitters that, after trimming names and
discarding empty names and empty links, still own at least one link. -/
def specEligibleNames (subs : List Submission) : Finset String :=
  (subs.filterMap (fun sub =>
    if jsTrim sub.name ≠ "" ∧ cleanedVideos sub ≠ [] then some (jsTrim sub.name)
    else none)).toFinset

/-- Total pooled link count, written from the words of the specification:
the cleaned links of every submission with a non-empty trimmed name. -/
def specTotalLinks (subs : List Submission) : Nat :=
  (subs.map (fun sub =>
    if jsTrim sub.name ≠ "" then (cleanedVideos sub).length else 0)).sum

/-! Date-gating model. Stored day values come from JSON, so a value may be
an array of items or something else entirely; an item may be an object
carrying a string url field, a string submitterName field and further
fields, or not an object at all. -/

/-- One stored item of a calendar day: an object with its url field when
present as a string, its submitterName field when present as a string, and
its remaining fields; or a non-object value. -/
inductive JItem where
  | obj (url : Option String) (submitterName : Option String)
      (extra : List (String × String))
  | nonObj
  deriving Repr, DecidableEq

/-- One stored day value: an array of items, or a non-array JSON value of
the given truthiness. -/
inductive JVal where
  | arr (items : List JItem)
  | other (truthy : Bool)
  deriving Repr, DecidableEq

/-- JavaScript truthiness of a stored day value: arrays are objects and are
always truthy; for anything else the embedding records it. -/
def jTruthy : JVal → Bool
  | .arr _ => true
  | .other b => b

/-- The url a stored item contributes in sanitizeDayData: its url field
when the item is an object carrying a string there, else the empty
string. -/
def itemUrlString : JItem → String
  | .obj (some u) _ _ => u
  | _ => ""

/-- sanitizeDayData of server.js: a non-array day yields the empty list, an
array maps each item to an object holding only a url field. -/
def sanitizeDayData : JVal → List JItem
  | .arr items => items.map (fun it => JItem.obj (some (itemUrlString it)) none [])
  | .other _ => []

/-- A persisted calendar with its numeric day keys. -/
abbrev Calendar := List (Nat × JVal)

/-- Lookup of one day in the stored calendar object. -/
def lookupDay (cal : Calendar) (d : Nat) : Option JVal :=
  (cal.find? (fun p => p.1 == d)).map (fun p => p.2)

/-- maxDay of the calendar endpoint: the greatest numeric day key, falling
back to 24 when there is none. -/
def maxDay (cal : Calendar) : Nat :=
  let keys := cal.map (fun p => p.1)
  if keys = [] then 24 else keys.foldl max 0

/-- The day-accessibility decision shared by both endpoint variants: past
the target month everything is open, inside it days up to today are open,
before it nothing is. -/
def isAccessible (currentMonth targetMonth today day : Nat) : Bool :=
  if targetMonth < currentMonth then true
  else if currentMonth = targetMonth then decide (day ≤ today)
  else false

/-- The target month hardcoded by getCurrentDateInfo of server.js. -/
def serverTargetMonth : Nat := 11

/-- The target month hardcoded by the earlier endpoint variant. -/
def part000TargetMonth : Nat := 9

/-- The redacted sentinel of server.js: one object with only a url. -/
def redactedServer : List JItem := [JItem.obj (some "REDACTED") none []]

/-- The loop body of the /api/calendar handler of server.js for one day:
missing or falsy stored data is redacted outright, then the accessibility
decision either sanitizes the stored items or redacts. -/
def gateDay (cal : Calendar) (currentMonth today day : Nat) : List JItem :=
  match lookupDay cal day with
  | none => redactedServer
  | some dd =>
    if jTruthy dd = false then redactedServer
    else if isAccessible currentMonth serverTargetMonth today day then
      sanitizeDayData dd
    else redactedServer

/-- The filtered object the /api/calendar handler of server.js returns:
days 1..maxDay each mapped through gateDay. -/
def apiCalendar (cal : Calendar) (currentMonth today : Nat) :
    List (Nat × List JItem) :=
  (List.range' 1 (maxDay cal)).map (fun d => (d, gateDay cal currentMonth today d))

/-- One record of submissions.json as the earlier endpoint variant reads
it for the banger special case. -/
structure Sub2 where
  name : String
  banger : String
  deriving Repr, DecidableEq

/-- The allBangers list the earlier variant builds for the last day: one
record per submission whose trimmed name and trimmed banger are both
non-empty, in file order. -/
def allBangers (subsFile : List Sub2) : List JItem :=
  subsFile.filterMap (fun sub =>
    let name := jsTrim sub.name
    let banger := jsTrim sub.banger
    if name ≠ "" ∧ banger ≠ "" then some (JItem.obj (some banger) (some name) [])
    else none)

/-- The redacted sentinel of the earlier variant: url and submitterName
both redacted. -/
def redactedFull : JVal :=
  JVal.arr [JItem.obj (some "REDACTED") (some "REDACTED") []]

/-- The loop body of the earlier /api/calendar variant for one day: missing
or falsy data is redacted, an accessible ordinary day passes the stored
value through unchanged, and the accessible last day is replaced by the
banger list when that list is non-empty. -/
def gateDay2 (cal : Calendar) (subsFile : List Sub2)
    (currentMonth today day maxD : Nat) : JVal :=
  match lookupDay cal day with
  | none => redactedFull
  | some dd =>
    if jTruthy dd = false then redactedFull
    else if isAccessible currentMonth part000TargetMonth today day then
      if day = maxD then
        if 0 < (allBangers subsFile).length then JVal.arr (allBangers subsFile)
        else dd
      else dd
    else redactedFull

/-- The filtered object the earlier /api/calendar variant returns. -/
def apiCalendar2 (cal : Calendar) (subsFile : List Sub2)
    (currentMonth today : Nat) : List (Nat × JVal) :=
  (List.range' 1 (maxDay cal)).map
    (fun d => (d, gateDay2 cal subsFile currentMonth today d (maxDay cal)))

/-- Lookup of one day in the filtered object of server.js. -/
def lookupOut (out : List (Nat × List JItem)) (d : Nat) : Option (List JItem) :=
  (out.find? (fun p => p.1 == d)).map (fun p => p.2)

/-- Lookup of one day in the filtered object of the earlier variant. -/
def lookupOut2 (out : List (Nat × JVal)) (d : Nat) : Option JVal :=
  (out.find? (fun p => p.1 == d)).map (fun p => p.2)

/-! Concrete inputs used by witnesses and counterexamples. -/

/-- A shuffle source that names the top index at every step, so every
Fisher-Yates step swaps a position with itself and each queue keeps its
submission order. -/
def rIdent : String → Nat → Nat := fun _ i => i

/-- A shuffle source distinct from rIdent that produces the same index
after the modulus of the Fisher-Yates step. -/
def rIdent2 : String → Nat → Nat := fun _ i => i + (i + 1)

/-- A tie-break source ranking every candidate equally, so equal usage
counts resolve to the earliest candidate in pool order. -/
def tbZero : Nat → String → Nat := fun _ _ => 0

/-- Example 1 of the specification: three submitters of two links each. -/
def exThree : List Submission :=
  [⟨"A", ["a1", "a2"]⟩, ⟨"B", ["b1", "b2"]⟩, ⟨"C", ["c1", "c2"]⟩]

/-- The schedule Example 1 produces under rIdent and tbZero for two days. -/
def exThreeSched : Schedule :=
  (generateCalendar exThree rIdent tbZero 2).toOption.getD []

/-- Example 2 of the specification: two submitters only. -/
def exTwo : List Submission :=
  [⟨"A", ["a1", "a2", "a3"]⟩, ⟨"B", ["b1", "b2", "b3"]⟩]

/-- Example 3 of the specification: three submitters, one link in total. -/
def exOneLink : List Submission :=
  [⟨"A", ["a1"]⟩, ⟨"B", []⟩, ⟨"C", []⟩]

/-- Input whose global link count passes for four days yet day 2 cannot be
filled with distinct submitters: the links are concentrated on A. -/
def exConc : List Submission :=
  [⟨"A", ["a1", "a2", "a3", "a4", "a5", "a6", "a7", "a8", "a9", "a10"]⟩,
   ⟨"B", ["b1"]⟩, ⟨"C", ["c1"]⟩]

/-- Input refuting the balance claim under its stated guard: A owns a
single link and exhausts on day 1, while B, C and D keep links throughout;
by day 3 the least-used eligible submitters sit two uses above A. -/
def exGap : List Submission :=
  [⟨"A", ["a1"]⟩,
   ⟨"B", ["b1", "b2", "b3", "b4", "b5", "b6"]⟩,
   ⟨"C", ["c1", "c2", "c3", "c4", "c5", "c6"]⟩,
   ⟨"D", ["d1", "d2", "d3", "d4", "d5", "d6"]⟩]

/-- The schedule exGap produces under rIdent and tbZero for three days. -/
def exGapSched : Schedule :=
  (generateCalendar exGap rIdent tbZero 3).toOption.getD []

/-- A stored calendar with one real day and a submitter name on record. -/
def exCal : Calendar :=
  [(1, JVal.arr [JItem.obj (some "u1") (some "Alice") [("note", "x")]]),
   (2, JVal.arr [JItem.obj (some "u2") (some "Bob") []])]

/-- A stored calendar whose single day holds a truthy non-array value. -/
def exCalBad : Calendar := [(1, JVal.other true)]

/-- A submissions file for the banger special case of the earlier
endpoint variant. -/
def exSubs2 : List Sub2 :=
  [⟨"Ada", "bang1"⟩, ⟨" ", "bang2"⟩, ⟨"Lin", ""⟩, ⟨"Sam", " bang3 "⟩]

/-- A calendar for the earlier variant whose greatest day key is 2. -/
def exCal2 : Calendar :=
  [(1, JVal.arr [JItem.obj (some "u1") (some "N1") []]),
   (2, JVal.arr [JItem.obj (some "u2") (some "N2") []])]

/-! Selection lemmas: the candidate pickMin returns is a member of the
candidate list and minimizes the first key component. -/

theorem keyLt_iff (p q : Nat × Nat) :
    keyLt p q = true ↔ p.1 < q.1 ∨ (p.1 = q.1 ∧ p.2 < q.2) := by
  simp [keyLt, Bool.or_eq_true, Bool.and_eq_true, decide_eq_true_eq, beq_iff_eq]

theorem pickMin_eq_none {key : String → Nat × Nat} {l : List String} :
    pickMin key l = none ↔ l = [] := by
  cases l with
  | nil => simp [pickMin]
  | cons a rest =>
    simp only [pickMin]
    cases h : pickMin key rest with
    | none => simp
    | some t => by_cases hk : keyLt (key t) (key a) = true <;> simp [hk]

theorem pickMin_mem {key : String → Nat × Nat} :
    ∀ {l : List String} {s : String}, pickMin key l = some s → s ∈ l := by
  intro l
  induction l with
  | nil => intro s h; simp [pickMin] at h
  | cons a rest ih =>
    intro s h
    cases hrest : pickMin key rest with
    | none =>
      simp only [pickMin, hrest] at h
      simp_all
    | some t =>
      simp only [pickMin, hrest] at h
      by_cases hk : keyLt (key t) (key a) = true
      · rw [if_pos hk] at h
        exact List.mem_cons_of_mem a (ih (hrest.trans h))
      · rw [if_neg hk] at h
        simp_all


theorem pickMin_min {key : String → Nat × Nat} :
    ∀ {l : List String} {s : String}, pickMin key l = some s →
      ∀ t ∈ l, (key s).1 ≤ (key t).1 := by
  intro l
  induction l with
  | nil => intro s h; simp [pickMin] at h
  | cons a rest ih =>
    intro s h t ht
    cases hrest : pickMin key rest with
    | none =>
      simp only [pickMin, hrest] at h
      have : rest = [] := pickMin_eq_none.mp hrest
      subst this
      simp only [Option.some.injEq] at h
      subst h
      simp only [List.mem_singleton] at ht
      subst ht
      exact Nat.le_refl _
    | some u =>
      simp only [pickMin, hrest] at h
      by_cases hk : keyLt (key u) (key a) = true
      · rw [if_pos hk] at h
        simp only [Option.some.injEq] at h
        subst h
        rcases List.mem_cons.mp ht with rfl | ht2
        · rcases (keyLt_iff _ _).mp hk with h1 | ⟨h1, _⟩
          · exact Nat.le_of_lt h1
          · exact Nat.le_of_eq h1
        · exact ih hrest t ht2
      · rw [if_neg hk] at h
        simp only [Option.some.injEq] at h
        subst h
        rcases List.mem_cons.mp ht with rfl | ht2
        · exact Nat.le_refl _
        · have hu := ih hrest t ht2
          have hno : ¬ ((key u).1 < (key a).1 ∨
              ((key u).1 = (key a).1 ∧ (key u).2 < (key a).2)) := by
            intro hc; exact hk ((keyLt_iff _ _).mpr hc)
          push_neg at hno
          exact Nat.le_trans hno.1 hu

theorem getNextSubmitter_spec {subm : List String} {pool : String → List String}
    {used : String → Nat} {tb : String → Nat} {excluded : List String} {y : String}
    (h : getNextSubmitter subm pool used tb excluded = some y) :
    y ∈ subm ∧ y ∉ excluded ∧ pool y ≠ [] ∧
      ∀ t ∈ subm, t ∉ excluded → pool t ≠ [] → used y ≤ used t := by
  have hmem := pickMin_mem h
  have hmin := pickMin_min h
  simp only [List.mem_filter, Bool.and_eq_true, Bool.not_eq_true',
    decide_eq_false_iff_not] at hmem
  refine ⟨hmem.1, hmem.2.1, hmem.2.2, ?_⟩
  intro t ht hex hpool
  have htf : t ∈ subm.filter
      (fun s => !(decide (s ∈ excluded)) && !(decide (pool s = []))) := by
    simp only [List.mem_filter, Bool.and_eq_true, Bool.not_eq_true',
      decide_eq_false_iff_not]
    exact ⟨ht, hex, hpool⟩
  exact hmin t htf

theorem getNextSubmitter_none {subm : List String} {pool : String → List String}
    {used : String → Nat} {tb : String → Nat} {excluded : List String}
    (h : getNextSubmitter subm pool used tb excluded = none) :
    ∀ t ∈ subm, t ∉ excluded → pool t = [] := by
  have : subm.filter
      (fun s => !(decide (s ∈ excluded)) && !(decide (pool s = []))) = [] :=
    pickMin_eq_none.mp h
  intro t ht hex
  by_contra hpool
  have htf : t ∈ subm.filter
      (fun s => !(decide (s ∈ excluded)) && !(decide (pool s = []))) := by
    simp only [List.mem_filter, Bool.and_eq_true, Bool.not_eq_true',
      decide_eq_false_iff_not]
    exact ⟨ht, hex, hpool⟩
  rw [this] at htf
  exact absurd htf (List.not_mem_nil t)

/-! Shuffle: the Fisher-Yates loop permutes its input, so a shuffled queue
holds exactly the multiset of the cleaned original. -/

theorem cons_set_perm : ∀ (xs : List String) (m : Nat) (c d : String),
    xs[m]? = some c → List.Perm (c :: xs.set m d) (d :: xs) := by
  intro xs
  induction xs with
  | nil => intro m c d h; simp at h
  | cons y ys ih =>
    intro m c d h
    cases m with
    | zero =>
      simp only [List.getElem?_cons_zero, Option.some.injEq] at h
      subst h
      simpa using List.Perm.swap d y ys
    | succ k =>
      simp only [List.getElem?_cons_succ] at h
      have step1 : List.Perm (c :: y :: ys.set k d) (y :: c :: ys.set k d) :=
        List.Perm.swap y c _
      have step2 : List.Perm (y :: c :: ys.set k d) (y :: d :: ys) :=
        List.Perm.cons y (ih k c d h)
      have step3 : List.Perm (y :: d :: ys) (d :: y :: ys) := List.Perm.swap d y _
      simpa using (step1.trans step2).trans step3

theorem set_of_getElem_eq : ∀ (l : List String) (i : Nat) (a : String),
    l[i]? = some a → l.set i a = l := by
  intro l
  induction l with
  | nil => intro i a h; simp at h
  | cons x xs ih =>
    intro i a h
    cases i with
    | zero => simp_all
    | succ k =>
      simp only [List.getElem?_cons_succ] at h
      simp [List.set, ih k a h]

theorem swap_core : ∀ (l : List String) (i j : Nat) (a b : String),
    l[i]? = some a → l[j]? = some b → List.Perm ((l.set i b).set j a) l := by
  intro l
  induction l with
  | nil => intro i j a b hi hj; simp at hi
  | cons x xs ih =>
    intro i j a b hi hj
    cases i with
    | zero =>
      simp only [List.getElem?_cons_zero, Option.some.injEq] at hi
      subst hi
      cases j with
      | zero =>
        simp only [List.getElem?_cons_zero, Option.some.injEq] at hj
        subst hj
        simp [List.set]
      | succ k =>
        simp only [List.getElem?_cons_succ] at hj
        simpa [List.set] using cons_set_perm xs k b x hj
    | succ m =>
      simp only [List.getElem?_cons_succ] at hi
      cases j with
      | zero =>
        simp only [List.getElem?_cons_zero, Option.some.injEq] at hj
        subst hj
        simpa [List.set] using cons_set_perm xs m a x hi
      | succ k =>
        simp only [List.getElem?_cons_succ] at hj
        simpa [List.set] using List.Perm.cons x (ih m k a b hi hj)

theorem listSwap_perm (l : List String) (i j : Nat) :
    List.Perm (listSwap l i j) l := by
  unfold listSwap
  cases hi : l[i]? with
  | none => exact List.Perm.refl l
  | some a =>
    cases hj : l[j]? with
    | none => exact List.Perm.refl l
    | some b => exact swap_core l i j a b hi hj

theorem fyAux_perm (r : Nat → Nat) : ∀ (i : Nat) (l : List String),
    List.Perm (fyAux r i l) l := by
  intro i
  induction i with
  | zero => intro l; exact List.Perm.refl l
  | succ k ih =>
    intro l
    exact (ih (listSwap l (k + 1) (r (k + 1) % (k + 2)))).trans
      (listSwap_perm l (k + 1) (r (k + 1) % (k + 2)))

theorem shuffle_perm (r : Nat → Nat) (l : List String) :
    List.Perm (shuffle r l) l :=
  fyAux_perm r (l.length - 1) l

theorem shuffle_length (r : Nat → Nat) (l : List String) :
    (shuffle r l).length = l.length :=
  (shuffle_perm r l).length_eq

/-! Association-list lemmas for the pool map. -/

theorem mapSet_cons_ne {p : String × List String} {t : List (String × List String)}
    {k : String} {v : List String} (h : p.1 ≠ k) :
    mapSet (p :: t) k v = p :: mapSet t k v := by
  have hb : (p.1 == k) = false := beq_eq_false_iff_ne.mpr h
  by_cases ht : t.any (fun q => q.1 == k) = true
  · simp only [mapSet, List.any_cons, hb, Bool.false_or, ht, if_true, List.map_cons]
    rw [if_neg Bool.false_ne_true]
  · simp only [Bool.not_eq_true] at ht
    simp only [mapSet, List.any_cons, hb, Bool.false_or, ht, Bool.false_eq_true,
      if_false, List.cons_append]

theorem map_keep_of_ne {t : List (String × List String)} {k : String} {v : List String}
    (h : ∀ q ∈ t, q.1 ≠ k) :
    t.map (fun q => if q.1 == k then (k, v) else q) = t := by
  induction t with
  | nil => rfl
  | cons q t ih =>
    have hb : (q.1 == k) = false := beq_eq_false_iff_ne.mpr (h q (List.mem_cons_self q t))
    rw [List.map_cons, if_neg (by rw [hb]; exact Bool.false_ne_true),
      ih (fun x hx => h x (List.mem_cons_of_mem q hx))]

theorem mapSet_cons_eq {k : String} {w : List String}
    {t : List (String × List String)} {v : List String}
    (h : ∀ q ∈ t, q.1 ≠ k) :
    mapSet ((k, w) :: t) k v = (k, v) :: t := by
  simp only [mapSet, List.any_cons, beq_self_eq_true, Bool.true_or, if_true,
    List.map_cons, if_pos (beq_self_eq_true k)]
  rw [map_keep_of_ne h]

theorem mapSet_keys {m : List (String × List String)} {k : String} {v : List String} :
    (mapSet m k v).map (fun p => p.1) =
      if k ∈ m.map (fun p => p.1) then m.map (fun p => p.1)
      else m.map (fun p => p.1) ++ [k] := by
  by_cases hmem : k ∈ m.map (fun p => p.1)
  · have hany : m.any (fun p => p.1 == k) = true := by
      simp only [List.any_eq_true]
      rcases List.mem_map.mp hmem with ⟨p, hp, hpk⟩
      exact ⟨p, hp, by simp [hpk]⟩
    rw [if_pos hmem]
    simp only [mapSet, hany, if_true, List.map_map]
    apply List.map_congr_left
    intro p hp
    by_cases hpk : (p.1 == k) = true
    · simp only [Function.comp, hpk, if_true]
      exact (eq_of_beq hpk).symm
    · simp only [Bool.not_eq_true] at hpk
      show (if (p.1 == k) = true then (k, v) else p).1 = p.1
      rw [if_neg (by rw [hpk]; exact Bool.false_ne_true)]
  · have hany : m.any (fun p => p.1 == k) = false := by
      apply Bool.eq_false_iff.mpr
      intro hc
      rcases List.any_eq_true.mp hc with ⟨p, hp, hpk⟩
      exact hmem (List.mem_map.mpr ⟨p, hp, eq_of_beq hpk⟩)
    rw [if_neg hmem]
    simp only [mapSet, hany, Bool.false_eq_true, if_false, List.map_append]
    rfl

theorem mapGet_cons_eq {k : String} {w : List String}
    {t : List (String × List String)} :
    mapGet ((k, w) :: t) k = some w := by
  simp [mapGet, List.find?]

theorem mapGet_cons_ne {p : String × List String} {t : List (String × List String)}
    {k : String} (h : p.1 ≠ k) : mapGet (p :: t) k = mapGet t k := by
  have hb : (p.1 == k) = false := beq_eq_false_iff_ne.mpr h
  simp [mapGet, List.find?, hb]

theorem mapGet_eq_none {m : List (String × List String)} {k : String}
    (h : ∀ q ∈ m, q.1 ≠ k) : mapGet m k = none := by
  induction m with
  | nil => rfl
  | cons p t ih =>
    rw [mapGet_cons_ne (h p (List.mem_cons_self p t))]
    exact ih (fun q hq => h q (List.mem_cons_of_mem p hq))

theorem mapSet_mem {m : List (String × List String)} {k : String} {v : List String}
    {q : String × List String} (h : q ∈ mapSet m k v) : q.2 = v ∨ q ∈ m := by
  unfold mapSet at h
  split at h
  · rcases List.mem_map.mp h with ⟨p, hp, hpq⟩
    by_cases hpk : (p.1 == k) = true
    · rw [if_pos hpk] at hpq
      left; rw [← hpq]
    · rw [if_neg hpk] at hpq
      right; rw [← hpq]; exact hp
  · rcases List.mem_append.mp h with hin | hin
    · right; exact hin
    · left; simp only [List.mem_singleton] at hin; rw [hin]

/-! Lemmas about the grouping loop buildPoolsRaw. -/

theorem keys_mem_mapGet {m : List (String × List String)} {k : String}
    (h : k ∈ m.map (fun p => p.1)) : ∃ old, mapGet m k = some old := by
  induction m with
  | nil => simp at h
  | cons p t ih =>
    by_cases hpk : p.1 = k
    · rcases p with ⟨a, b⟩
      subst hpk
      exact ⟨b, mapGet_cons_eq⟩
    · rw [mapGet_cons_ne hpk]
      apply ih
      rcases List.mem_map.mp h with ⟨q, hq, hqk⟩
      rcases List.mem_cons.mp hq with rfl | hq2
      · exact absurd hqk hpk
      · exact List.mem_map.mpr ⟨q, hq2, hqk⟩

theorem keys_not_mem_mapGet {m : List (String × List String)} {k : String}
    (h : k ∉ m.map (fun p => p.1)) : mapGet m k = none := by
  apply mapGet_eq_none
  intro q hq hc
  exact h (List.mem_map.mpr ⟨q, hq, hc⟩)

theorem countTotalLinks_append (m₁ m₂ : List (String × List String)) :
    countTotalLinks (m₁ ++ m₂) = countTotalLinks m₁ + countTotalLinks m₂ := by
  simp [countTotalLinks, List.map_append, List.sum_append]

theorem countTotalLinks_mapSet_grow {m : List (String × List String)} {k : String}
    {old c : List String} (hnd : (m.map (fun p => p.1)).Nodup)
    (hget : mapGet m k = some old) :
    countTotalLinks (mapSet m k (old ++ c)) = countTotalLinks m + c.length := by
  induction m with
  | nil => simp [mapGet] at hget
  | cons p t ih =>
    rcases p with ⟨a, b⟩
    simp only [List.map_cons, List.nodup_cons] at hnd
    by_cases hak : a = k
    · subst hak
      rw [mapGet_cons_eq] at hget
      have hold : b = old := by simpa using hget
      subst hold
      have hne : ∀ q ∈ t, q.1 ≠ a := by
        intro q hq hc
        exact hnd.1 (List.mem_map.mpr ⟨q, hq, hc⟩)
      rw [mapSet_cons_eq hne]
      simp [countTotalLinks, Nat.add_assoc, Nat.add_comm, Nat.add_left_comm]
    · rw [mapGet_cons_ne hak] at hget
      rw [mapSet_cons_ne hak]
      have := ih hnd.2 hget
      simp only [countTotalLinks, List.map_cons, List.sum_cons] at this ⊢
      omega

theorem poolStep_keys (m : List (String × List String)) (sub : Submission) :
    (poolStep m sub).map (fun p => p.1) = m.map (fun p => p.1) ∨
      ((poolStep m sub).map (fun p => p.1) = m.map (fun p => p.1) ++ [jsTrim sub.name] ∧
        jsTrim sub.name ∉ m.map (fun p => p.1) ∧ jsTrim sub.name ≠ "" ∧
        cleanedVideos sub ≠ []) := by
  unfold poolStep
  by_cases h1 : jsTrim sub.name = ""
  · left; rw [if_pos h1]
  · rw [if_neg h1]
    by_cases h2 : cleanedVideos sub = []
    · left; rw [if_pos h2]
    · rw [if_neg h2]
      by_cases h3 : jsTrim sub.name ∈ m.map (fun p => p.1)
      · left; rw [mapSet_keys, if_pos h3]
      · right
        refine ⟨?_, h3, h1, h2⟩
        rw [mapSet_keys, if_neg h3]

theorem foldl_poolStep_keys_nodup :
    ∀ (subs : List Submission) (m : List (String × List String)),
      (m.map (fun p => p.1)).Nodup → ((subs.foldl poolStep m).map (fun p => p.1)).Nodup := by
  intro subs
  induction subs with
  | nil => intro m h; exact h
  | cons sub rest ih =>
    intro m h
    rw [List.foldl_cons]
    apply ih
    rcases poolStep_keys m sub with heq | ⟨heq, hnm, _, _⟩
    · rw [heq]; exact h
    · rw [heq]
      simp only [List.nodup_append, List.nodup_cons]
      refine ⟨h, by simp, ?_⟩
      simp only [List.disjoint_singleton]
      exact hnm

theorem foldl_poolStep_keys_mem :
    ∀ (subs : List Submission) (m : List (String × List String)) (s : String),
      (s ∈ (subs.foldl poolStep m).map (fun p => p.1) ↔
        s ∈ m.map (fun p => p.1) ∨
          ∃ sub ∈ subs, jsTrim sub.name = s ∧ jsTrim sub.name ≠ "" ∧
            cleanedVideos sub ≠ []) := by
  intro subs
  induction subs with
  | nil => intro m s; simp
  | cons sub rest ih =>
    intro m s
    rw [List.foldl_cons, ih]
    constructor
    · rintro (hm | ⟨q, hq, hprop⟩)
      · rcases poolStep_keys m sub with heq | ⟨heq, hnm, hne, hcl⟩
        · rw [heq] at hm; exact Or.inl hm
        · rw [heq] at hm
          rcases List.mem_append.mp hm with hm2 | hm2
          · exact Or.inl hm2
          · simp only [List.mem_singleton] at hm2
            exact Or.inr ⟨sub, List.mem_cons_self sub rest, hm2.symm, hne, hcl⟩
      · exact Or.inr ⟨q, List.mem_cons_of_mem sub hq, hprop⟩
    · rintro (hm | ⟨q, hq, hqs, hne, hcl⟩)
      · rcases poolStep_keys m sub with heq | ⟨heq, _, _, _⟩
        · rw [heq]; exact Or.inl hm
        · rw [heq]; exact Or.inl (List.mem_append.mpr (Or.inl hm))
      · rcases List.mem_cons.mp hq with rfl | hq2
        · left
          unfold poolStep
          rw [if_neg hne, if_neg hcl, mapSet_keys]
          by_cases h3 : jsTrim q.name ∈ m.map (fun p => p.1)
          · rw [if_pos h3]; rw [← hqs]; exact h3
          · rw [if_neg h3]
            exact List.mem_append.mpr (Or.inr (by simp [hqs]))
        · exact Or.inr ⟨q, hq2, hqs, hne, hcl⟩

theorem poolStep_total {m : List (String × List String)} {sub : Submission}
    (hnd : (m.map (fun p => p.1)).Nodup) :
    countTotalLinks (poolStep m sub) =
      countTotalLinks m +
        (if jsTrim sub.name ≠ "" then (cleanedVideos sub).length else 0) := by
  unfold poolStep
  by_cases h1 : jsTrim sub.name = ""
  · rw [if_pos h1]; simp [h1]
  · rw [if_neg h1]
    by_cases h2 : cleanedVideos sub = []
    · rw [if_pos h2]; simp [h1, h2]
    · rw [if_neg h2, if_pos (by exact h1)]
      by_cases h3 : jsTrim sub.name ∈ m.map (fun p => p.1)
      · rcases keys_mem_mapGet h3 with ⟨old, hget⟩
        rw [hget]
        simpa using countTotalLinks_mapSet_grow hnd hget
      · rw [keys_not_mem_mapGet h3]
        simp only [Option.getD_none, List.nil_append]
        unfold mapSet
        have hany : m.any (fun p => p.1 == jsTrim sub.name) = false := by
          apply Bool.eq_false_iff.mpr
          intro hc
          rcases List.any_eq_true.mp hc with ⟨p, hp, hpk⟩
          exact h3 (List.mem_map.mpr ⟨p, hp, eq_of_beq hpk⟩)
        rw [hany]
        simp [countTotalLinks_append, countTotalLinks]

theorem foldl_poolStep_total :
    ∀ (subs : List Submission) (m : List (String × List String)),
      (m.map (fun p => p.1)).Nodup →
      countTotalLinks (subs.foldl poolStep m) =
        countTotalLinks m +
          (subs.map (fun sub =>
            if jsTrim sub.name ≠ "" then (cleanedVideos sub).length else 0)).sum := by
  intro subs
  induction subs with
  | nil => intro m h; simp
  | cons sub rest ih =>
    intro m h
    rw [List.foldl_cons, List.map_cons, List.sum_cons]
    have hnd2 : ((poolStep m sub).map (fun p => p.1)).Nodup := by
      rcases poolStep_keys m sub with heq | ⟨heq, hnm, _, _⟩
      · rw [heq]; exact h
      · rw [heq]
        simp only [List.nodup_append, List.nodup_cons]
        refine ⟨h, by simp, ?_⟩
        simp only [List.disjoint_singleton]
        exact hnm
    rw [ih (poolStep m sub) hnd2, poolStep_total h]
    omega

theorem poolStep_values {m : List (String × List String)} {sub : Submission}
    (h : ∀ q ∈ m, q.2 ≠ []) : ∀ q ∈ poolStep m sub, q.2 ≠ [] := by
  unfold poolStep
  by_cases h1 : jsTrim sub.name = ""
  · rw [if_pos h1]; exact h
  · rw [if_neg h1]
    by_cases h2 : cleanedVideos sub = []
    · rw [if_pos h2]; exact h
    · rw [if_neg h2]
      intro q hq
      rcases mapSet_mem hq with hv | hm
      · rw [hv]
        intro hc
        rcases List.append_eq_nil.mp hc with ⟨_, hc2⟩
        exact h2 hc2
      · exact h q hm

theorem foldl_poolStep_values :
    ∀ (subs : List Submission) (m : List (String × List String)),
      (∀ q ∈ m, q.2 ≠ []) → ∀ q ∈ subs.foldl poolStep m, q.2 ≠ [] := by
  intro subs
  induction subs with
  | nil => intro m h; exact h
  | cons sub rest ih =>
    intro m h
    rw [List.foldl_cons]
    exact ih (poolStep m sub) (poolStep_values h)

theorem submittersOf_nodup (subs : List Submission) : (submittersOf subs).Nodup :=
  foldl_poolStep_keys_nodup subs [] (by simp)

theorem submittersOf_mem (subs : List Submission) (s : String) :
    s ∈ submittersOf subs ↔
      ∃ sub ∈ subs, jsTrim sub.name = s ∧ jsTrim sub.name ≠ "" ∧
        cleanedVideos sub ≠ [] := by
  have := foldl_poolStep_keys_mem subs [] s
  simpa [submittersOf, buildPoolsRaw] using this

theorem buildPoolsRaw_values (subs : List Submission) :
    ∀ q ∈ buildPoolsRaw subs, q.2 ≠ [] :=
  foldl_poolStep_values subs [] (by simp)

theorem countTotalLinks_raw (subs : List Submission) :
    countTotalLinks (buildPoolsRaw subs) = specTotalLinks subs := by
  have := foldl_poolStep_total subs [] (by simp)
  simpa [buildPoolsRaw, specTotalLinks, countTotalLinks] using this

theorem mapGet_mapSet_self {m : List (String × List String)} {k : String}
    {v : List String} (hnd : (m.map (fun p => p.1)).Nodup) :
    mapGet (mapSet m k v) k = some v := by
  induction m with
  | nil => simp [mapSet, mapGet, List.find?]
  | cons p t ih =>
    rcases p with ⟨a, b⟩
    simp only [List.map_cons, List.nodup_cons] at hnd
    by_cases hak : a = k
    · subst hak
      have hne : ∀ q ∈ t, q.1 ≠ a := by
        intro q hq hc
        exact hnd.1 (List.mem_map.mpr ⟨q, hq, hc⟩)
      rw [mapSet_cons_eq hne, mapGet_cons_eq]
    · rw [mapSet_cons_ne hak, mapGet_cons_ne hak]
      exact ih hnd.2

theorem mapGet_mapSet_ne {m : List (String × List String)} {k s : String}
    {v : List String} (hks : k ≠ s) (hnd : (m.map (fun p => p.1)).Nodup) :
    mapGet (mapSet m k v) s = mapGet m s := by
  induction m with
  | nil =>
    simp only [mapSet, List.any_nil, Bool.false_eq_true, if_false, List.nil_append]
    rw [mapGet_cons_ne hks]
  | cons p t ih =>
    rcases p with ⟨a, b⟩
    simp only [List.map_cons, List.nodup_cons] at hnd
    by_cases hak : a = k
    · subst hak
      have hne : ∀ q ∈ t, q.1 ≠ a := by
        intro q hq hc
        exact hnd.1 (List.mem_map.mpr ⟨q, hq, hc⟩)
      rw [mapSet_cons_eq hne, mapGet_cons_ne hks, mapGet_cons_ne hks]
    · rw [mapSet_cons_ne hak]
      by_cases has : a = s
      · subst has
        rw [mapGet_cons_eq, mapGet_cons_eq]
      · rw [mapGet_cons_ne has, mapGet_cons_ne has]
        exact ih hnd.2

theorem poolStep_nodup {m : List (String × List String)} {sub : Submission}
    (h : (m.map (fun p => p.1)).Nodup) :
    ((poolStep m sub).map (fun p => p.1)).Nodup := by
  rcases poolStep_keys m sub with heq | ⟨heq, hnm, _, _⟩
  · rw [heq]; exact h
  · rw [heq]
    simp only [List.nodup_append, List.nodup_cons]
    refine ⟨h, by simp, ?_⟩
    simp only [List.disjoint_singleton]
    exact hnm

theorem poolStep_get {m : List (String × List String)} {sub : Submission}
    {s : String} (hnd : (m.map (fun p => p.1)).Nodup) :
    (mapGet (poolStep m sub) s).getD [] =
      (mapGet m s).getD [] ++
        (if jsTrim sub.name = s ∧ s ≠ "" then cleanedVideos sub else []) := by
  unfold poolStep
  by_cases h1 : jsTrim sub.name = ""
  · rw [if_pos h1]
    have : ¬ (jsTrim sub.name = s ∧ s ≠ "") := by
      rintro ⟨rfl, hs⟩; exact hs h1
    rw [if_neg this, List.append_nil]
  · rw [if_neg h1]
    by_cases h2 : cleanedVideos sub = []
    · rw [if_pos h2]
      by_cases h3 : jsTrim sub.name = s ∧ s ≠ ""
      · rw [if_pos h3, h2, List.append_nil]
      · rw [if_neg h3, List.append_nil]
    · rw [if_neg h2]
      by_cases h4 : jsTrim sub.name = s
      · subst h4
        rw [mapGet_mapSet_self hnd, if_pos ⟨rfl, h1⟩]
        rfl
      · rw [mapGet_mapSet_ne h4 hnd]
        have : ¬ (jsTrim sub.name = s ∧ s ≠ "") := fun hc => h4 hc.1
        rw [if_neg this, List.append_nil]

theorem foldl_poolStep_get :
    ∀ (subs : List Submission) (m : List (String × List String)) (s : String),
      (m.map (fun p => p.1)).Nodup →
      (mapGet (subs.foldl poolStep m) s).getD [] =
        (mapGet m s).getD [] ++
          (subs.map (fun sub =>
            if jsTrim sub.name = s ∧ s ≠ "" then cleanedVideos sub else [])).flatten := by
  intro subs
  induction subs with
  | nil => intro m s h; simp
  | cons sub rest ih =>
    intro m s h
    rw [List.foldl_cons, ih (poolStep m sub) s (poolStep_nodup h), poolStep_get h,
      List.map_cons, List.flatten_cons, List.append_assoc]

theorem rawQueue_eq (subs : List Submission) (s : String) :
    rawQueue subs s =
      (subs.map (fun sub =>
        if jsTrim sub.name = s ∧ s ≠ "" then cleanedVideos sub else [])).flatten := by
  have := foldl_poolStep_get subs [] s (by simp)
  simpa [rawQueue, buildPoolsRaw, mapGet] using this

theorem mem_rawQueue (subs : List Submission) (s x : String) :
    x ∈ rawQueue subs s ↔
      ∃ sub ∈ subs, jsTrim sub.name = s ∧ s ≠ "" ∧ x ∈ cleanedVideos sub := by
  rw [rawQueue_eq]
  simp only [List.mem_flatten, List.mem_map]
  constructor
  · rintro ⟨l, ⟨sub, hsub, hl⟩, hx⟩
    by_cases hc : jsTrim sub.name = s ∧ s ≠ ""
    · rw [if_pos hc] at hl
      exact ⟨sub, hsub, hc.1, hc.2, hl ▸ hx⟩
    · rw [if_neg hc] at hl
      rw [← hl] at hx
      exact absurd hx (List.not_mem_nil x)
  · rintro ⟨sub, hsub, h1, h2, hx⟩
    exact ⟨cleanedVideos sub, ⟨sub, hsub, by rw [if_pos ⟨h1, h2⟩]⟩, hx⟩

/-! Lemmas connecting the shuffled pool to the raw pool. -/

theorem buildPools_keys (subs : List Submission) (r : String → Nat → Nat) :
    (buildPools subs r).map (fun p => p.1) = submittersOf subs := by
  simp [buildPools, submittersOf, List.map_map, Function.comp]

theorem mapGet_buildPools (subs : List Submission) (r : String → Nat → Nat)
    (s : String) :
    mapGet (buildPools subs r) s = (mapGet (buildPoolsRaw subs) s).map (shuffle (r s)) := by
  unfold buildPools
  generalize buildPoolsRaw subs = m
  induction m with
  | nil => rfl
  | cons p t ih =>
    rcases p with ⟨a, b⟩
    by_cases has : a = s
    · subst has
      rw [List.map_cons]
      show mapGet ((a, shuffle (r a) b) :: t.map (fun p => (p.1, shuffle (r p.1) p.2))) a
          = Option.map (shuffle (r a)) (mapGet ((a, b) :: t) a)
      rw [mapGet_cons_eq, mapGet_cons_eq]
      rfl
    · rw [List.map_cons]
      show mapGet ((a, shuffle (r a) b) :: t.map (fun p => (p.1, shuffle (r p.1) p.2))) s
          = Option.map (shuffle (r s)) (mapGet ((a, b) :: t) s)
      rw [mapGet_cons_ne has, mapGet_cons_ne has]
      exact ih

theorem initQueue_perm_rawQueue (subs : List Submission) (r : String → Nat → Nat)
    (s : String) : List.Perm (initQueue subs r s) (rawQueue subs s) := by
  unfold initQueue rawQueue
  rw [mapGet_buildPools]
  cases hget : mapGet (buildPoolsRaw subs) s with
  | none => simp
  | some q => simpa using shuffle_perm (r s) q

theorem countTotalLinks_buildPools (subs : List Submission) (r : String → Nat → Nat) :
    countTotalLinks (buildPools subs r) = countTotalLinks (buildPoolsRaw subs) := by
  unfold buildPools countTotalLinks
  rw [List.map_map]
  apply congrArg
  apply List.map_congr_left
  intro p hp
  simp [Function.comp, shuffle_length]

theorem specEligible_card (subs : List Submission) :
    (specEligibleNames subs).card = (submittersOf subs).length := by
  have hset : (submittersOf subs).toFinset = specEligibleNames subs := by
    ext s
    rw [List.mem_toFinset, submittersOf_mem]
    unfold specEligibleNames
    rw [List.mem_toFinset, List.mem_filterMap]
    constructor
    · rintro ⟨sub, hsub, h1, h2, h3⟩
      refine ⟨sub, hsub, ?_⟩
      rw [if_pos ⟨h2, h3⟩, h1]
    · rintro ⟨sub, hsub, hf⟩
      by_cases hc : jsTrim sub.name ≠ "" ∧ cleanedVideos sub ≠ []
      · rw [if_pos hc] at hf
        have := Option.some.injEq _ _ ▸ hf
        exact ⟨sub, hsub, by simpa using hf, hc.1, hc.2⟩
      · rw [if_neg hc] at hf
        exact absurd hf (Option.noConfusion)
  rw [← hset, List.toFinset_card_of_nodup (submittersOf_nodup subs)]

/-! Structural facts about one day of slot filling. -/

theorem assignedUrls_cons (sl : DaySlot) (slots : List DaySlot) (s : String) :
    assignedUrls (sl :: slots) s =
      if sl.submitterName = s then sl.url :: assignedUrls slots s
      else assignedUrls slots s := by
  by_cases h : sl.submitterName = s <;> simp [assignedUrls, h]

theorem assignedUrls_nil (s : String) : assignedUrls [] s = [] := rfl

theorem assignedUrls_append (l₁ l₂ : List DaySlot) (s : String) :
    assignedUrls (l₁ ++ l₂) s = assignedUrls l₁ s ++ assignedUrls l₂ s := by
  simp [assignedUrls, List.filter_append]

theorem fillSlots_spec {subm : List String} {tb : Nat → String → Nat} :
    ∀ {n k : Nat} {pool : String → List String} {used : String → Nat}
      {excluded : List String} {slots : List DaySlot}
      {p2 : String → List String} {u2 : String → Nat},
      fillSlots subm tb k n pool used excluded = some (slots, p2, u2) →
      slots.length = n ∧
      (slots.map (fun sl => sl.submitterName)).Nodup ∧
      (∀ x ∈ slots.map (fun sl => sl.submitterName), x ∈ subm ∧ x ∉ excluded) ∧
      (∀ s, assignedUrls slots s ++ p2 s = pool s) ∧
      (∀ s, s ∉ slots.map (fun sl => sl.submitterName) →
        p2 s = pool s ∧ u2 s = used s) ∧
      (p2, u2) = slots.foldl applySlot (pool, used) := by
  intro n
  induction n with
  | zero =>
    intro k pool used excluded slots p2 u2 h
    simp only [fillSlots, Option.some.injEq, Prod.mk.injEq] at h
    obtain ⟨h1, h2, h3⟩ := h
    subst h1; subst h2; subst h3
    refine ⟨rfl, by simp, by simp, ?_, by simp, rfl⟩
    intro s
    simp [assignedUrls_nil]
  | succ n ih =>
    intro k pool used excluded slots p2 u2 h
    cases hnext : getNextSubmitter subm pool used (tb k) excluded with
    | none =>
      simp only [fillSlots, hnext] at h
      exact Option.noConfusion h
    | some s0 =>
      simp only [fillSlots, hnext] at h
      cases hps : pool s0 with
      | nil => rw [hps] at h; simp at h
      | cons url rest =>
        rw [hps] at h
        cases hrec : fillSlots subm tb (k + 1) n
            (fun t => if t = s0 then (pool t).tail else pool t)
            (fun t => if t = s0 then used t + 1 else used t)
            (excluded ++ [s0]) with
        | none => rw [hrec] at h; simp at h
        | some res =>
          rcases res with ⟨slots1, p21, u21⟩
          rw [hrec] at h
          simp only [Option.some.injEq, Prod.mk.injEq] at h
          obtain ⟨hsl, hp, hu⟩ := h
          subst hp; subst hu
          obtain ⟨ihlen, ihnd, ihmem, ihass, ihun, ihfold⟩ := ih hrec
          have hspec := getNextSubmitter_spec hnext
          subst hsl
          have hnames : (⟨url, s0⟩ :: slots1 : List DaySlot).map
              (fun sl => sl.submitterName) = s0 :: slots1.map (fun sl => sl.submitterName) := rfl
          constructor
          · simp [ihlen]
          constructor
          · rw [hnames, List.nodup_cons]
            refine ⟨?_, ihnd⟩
            intro hc
            have := (ihmem s0 hc).2
            simp at this
          constructor
          · rw [hnames]
            intro x hx
            rcases List.mem_cons.mp hx with rfl | hx2
            · exact ⟨hspec.1, hspec.2.1⟩
            · have := ihmem x hx2
              refine ⟨this.1, ?_⟩
              intro hc
              exact this.2 (List.mem_append.mpr (Or.inl hc))
          constructor
          · intro s
            rw [show (⟨url, s0⟩ :: slots1 : List DaySlot) = [⟨url, s0⟩] ++ slots1 from rfl,
              assignedUrls_append]
            by_cases hs : s0 = s
            · subst hs
              have h1 : assignedUrls [⟨url, s0⟩] s0 = [url] := by
                simp [assignedUrls]
              rw [h1]
              have := ihass s0
              simp only [if_pos rfl] at this
              rw [List.append_assoc, this, hps]
              rfl
            · have h1 : assignedUrls [⟨url, s0⟩] s = [] := by
                simp [assignedUrls, hs]
              rw [h1, List.nil_append]
              have := ihass s
              simp only [if_neg (fun hc : s = s0 => hs hc.symm)] at this
              exact this
          constructor
          · intro s hs
            rw [hnames] at hs
            have hs0 : s ≠ s0 := fun hc => hs (hc ▸ List.mem_cons_self s0 _)
            have hs1 : s ∉ slots1.map (fun sl => sl.submitterName) :=
              fun hc => hs (List.mem_cons_of_mem s0 hc)
            have := ihun s hs1
            rw [this.1, this.2]
            simp [if_neg hs0]
          · rw [List.foldl_cons]
            exact ihfold
  
/-! Balance invariant lemmas: selection by least usage keeps every pair of
counts within one of each other as long as no queue empties. -/

theorem invMid_spread {subm : List String} {used : String → Nat} {ex : List String}
    (h : invMid subm used ex) : spreadLe1 subm used := by
  intro s hs t ht
  by_cases hsx : s ∈ ex
  · by_cases htx : t ∈ ex
    · exact h.2.2.2 s hsx t htx
    · exact h.2.1 s hsx t ht htx
  · by_cases htx : t ∈ ex
    · exact Nat.le_trans (h.2.2.1 s hs hsx t htx) (Nat.le_add_right _ 1)
    · exact h.1 s hs hsx t ht htx

theorem invMid_nil {subm : List String} {used : String → Nat}
    (h : spreadLe1 subm used) : invMid subm used [] := by
  refine ⟨fun s hs _ t ht _ => h s hs t ht, ?_, ?_, ?_⟩ <;> simp

theorem invMid_step {subm : List String} {used : String → Nat} {ex : List String}
    {pool : String → List String} {tb : String → Nat} {y : String}
    (hinv : invMid subm used ex)
    (hpool : ∀ s ∈ subm, s ∉ ex → pool s ≠ [])
    (hnext : getNextSubmitter subm pool used tb ex = some y) :
    invMid subm (fun t => if t = y then used t + 1 else used t) (ex ++ [y]) := by
  obtain ⟨hy, hyex, hypool, hymin⟩ := getNextSubmitter_spec hnext
  have hUmin : ∀ t ∈ subm, t ∉ ex → used y ≤ used t := by
    intro t ht htex
    exact hymin t ht htex (hpool t ht htex)
  have hmem : ∀ x : String, x ∈ ex ++ [y] ↔ x ∈ ex ∨ x = y := by
    intro x
    simp [List.mem_append]
  refine ⟨?_, ?_, ?_, ?_⟩
  · intro s hs hsx t ht htx
    rw [hmem] at hsx htx
    push_neg at hsx htx
    dsimp only
    rw [if_neg hsx.2, if_neg htx.2]
    exact hinv.1 s hs hsx.1 t ht htx.1
  · intro x hx s hs hsx
    rw [hmem] at hx hsx
    push_neg at hsx
    dsimp only
    rw [if_neg hsx.2]
    rcases hx with hx | rfl
    · have hxy : x ≠ y := fun hc => hyex (hc ▸ hx)
      rw [if_neg hxy]
      exact hinv.2.1 x hx s hs hsx.1
    · rw [if_pos rfl]
      exact Nat.add_le_add_right (hUmin s hs hsx.1) 1
  · intro s hs hsx x hx
    rw [hmem] at hx hsx
    push_neg at hsx
    dsimp only
    rw [if_neg hsx.2]
    rcases hx with hx | rfl
    · have hxy : x ≠ y := fun hc => hyex (hc ▸ hx)
      rw [if_neg hxy]
      exact hinv.2.2.1 s hs hsx.1 x hx
    · rw [if_pos rfl]
      exact hinv.1 s hs hsx.1 x hy hyex
  · intro x hx z hz
    rw [hmem] at hx hz
    dsimp only
    rcases hx with hx | rfl
    · have hxy : x ≠ y := fun hc => hyex (hc ▸ hx)
      rw [if_neg hxy]
      rcases hz with hz | rfl
      · have hzy : z ≠ y := fun hc => hyex (hc ▸ hz)
        rw [if_neg hzy]
        exact hinv.2.2.2 x hx z hz
      · rw [if_pos rfl]
        exact Nat.le_trans (hinv.2.1 x hx z hy hyex) (Nat.le_add_right _ 1)
    · rw [if_pos rfl]
      rcases hz with hz | rfl
      · have hzy : z ≠ x := fun hc => hyex (hc ▸ hz)
        rw [if_neg hzy]
        exact Nat.add_le_add_right (hinv.2.2.1 x hy hyex z hz) 1
      · rw [if_pos rfl]
        exact Nat.le_add_right _ 1

theorem fillSlots_spread {subm : List String} {tb : Nat → String → Nat} :
    ∀ {n k : Nat} {pool : String → List String} {used : String → Nat}
      {ex : List String} {slots : List DaySlot}
      {p2 : String → List String} {u2 : String → Nat},
      fillSlots subm tb k n pool used ex = some (slots, p2, u2) →
      invMid subm used ex →
      (∀ s ∈ subm, s ∉ ex → pool s ≠ []) →
      (∀ st ∈ List.scanl applySlot (pool, used) slots, spreadLe1 subm st.2) ∧
        invMid subm u2 (ex ++ slots.map (fun sl => sl.submitterName)) := by
  intro n
  induction n with
  | zero =>
    intro k pool used ex slots p2 u2 h hinv hpool
    simp only [fillSlots, Option.some.injEq, Prod.mk.injEq] at h
    obtain ⟨h1, h2, h3⟩ := h
    subst h1; subst h2; subst h3
    constructor
    · intro st hst
      simp only [List.scanl_nil, List.mem_singleton] at hst
      subst hst
      exact invMid_spread hinv
    · simpa using hinv
  | succ n ih =>
    intro k pool used ex slots p2 u2 h hinv hpool
    cases hnext : getNextSubmitter subm pool used (tb k) ex with
    | none =>
      simp only [fillSlots, hnext] at h
      exact Option.noConfusion h
    | some s0 =>
      simp only [fillSlots, hnext] at h
      cases hps : pool s0 with
      | nil => rw [hps] at h; simp at h
      | cons url rest =>
        rw [hps] at h
        cases hrec : fillSlots subm tb (k + 1) n
            (fun t => if t = s0 then (pool t).tail else pool t)
            (fun t => if t = s0 then used t + 1 else used t)
            (ex ++ [s0]) with
        | none => rw [hrec] at h; simp at h
        | some res =>
          rcases res with ⟨slots1, p21, u21⟩
          rw [hrec] at h
          simp only [Option.some.injEq, Prod.mk.injEq] at h
          obtain ⟨hsl, hp, hu⟩ := h
          subst hp; subst hu; subst hsl
          have hinv1 := invMid_step hinv hpool hnext
          have hpool1 : ∀ s ∈ subm, s ∉ ex ++ [s0] →
              (fun t => if t = s0 then (pool t).tail else pool t) s ≠ [] := by
            intro s hs hsx
            have hss : s ∉ ex ∧ s ≠ s0 := by
              constructor
              · intro hc; exact hsx (List.mem_append.mpr (Or.inl hc))
              · intro hc; exact hsx (List.mem_append.mpr (Or.inr (by simp [hc])))
            simp only [if_neg hss.2]
            exact hpool s hs hss.1
          obtain ⟨ihstates, ihinv⟩ := ih hrec hinv1 hpool1
          constructor
          · intro st hst
            rw [List.scanl_cons] at hst
            rcases List.mem_append.mp hst with h1 | h2
            · simp only [List.mem_singleton] at h1
              subst h1
              exact invMid_spread hinv
            · have happ : applySlot (pool, used) ⟨url, s0⟩ =
                  (fun t => if t = s0 then (pool t).tail else pool t,
                   fun t => if t = s0 then used t + 1 else used t) := rfl
              rw [happ] at h2
              exact ihstates st h2
          · have : ex ++ (⟨url, s0⟩ :: slots1 : List DaySlot).map (fun sl => sl.submitterName) =
                (ex ++ [s0]) ++ slots1.map (fun sl => sl.submitterName) := by
              simp
            rw [this]
            exact ihinv

theorem assignedUrls_eq_nil {slots : List DaySlot} {s : String}
    (h : s ∉ slots.map (fun sl => sl.submitterName)) : assignedUrls slots s = [] := by
  induction slots with
  | nil => rfl
  | cons sl rest ih =>
    rw [List.map_cons] at h
    rw [assignedUrls_cons,
      if_neg (fun hc : sl.submitterName = s => h (hc ▸ List.mem_cons_self sl.submitterName _))]
    exact ih (fun hc => h (List.mem_cons_of_mem _ hc))

theorem assignedUrls_len_le_one {slots : List DaySlot} {s : String}
    (h : (slots.map (fun sl => sl.submitterName)).Nodup) :
    (assignedUrls slots s).length ≤ 1 := by
  induction slots with
  | nil => simp [assignedUrls_nil]
  | cons sl rest ih =>
    rw [List.map_cons, List.nodup_cons] at h
    rw [assignedUrls_cons]
    by_cases hc : sl.submitterName = s
    · rw [if_pos hc]
      have : assignedUrls rest s = [] := assignedUrls_eq_nil (hc ▸ h.1)
      simp [this]
    · rw [if_neg hc]
      exact ih h.2

theorem fillSlots_len {subm : List String} {tb : Nat → String → Nat}
    {n k : Nat} {pool : String → List String} {used : String → Nat}
    {excluded : List String} {slots : List DaySlot}
    {p2 : String → List String} {u2 : String → Nat}
    (h : fillSlots subm tb k n pool used excluded = some (slots, p2, u2)) :
    ∀ s, (pool s).length ≤ (p2 s).length + 1 := by
  obtain ⟨_, hnd, _, hass, _, _⟩ := fillSlots_spec h
  intro s
  have := hass s
  have hlen : (assignedUrls slots s).length + (p2 s).length = (pool s).length := by
    rw [← this, List.length_append]
  have hone := assignedUrls_len_le_one (s := s) hnd
  omega

theorem scanl_append_mem {α β : Type} (f : β → α → β) :
    ∀ (l1 l2 : List α) (b : β) (st : β),
      st ∈ List.scanl f b (l1 ++ l2) →
      st ∈ List.scanl f b l1 ∨ st ∈ List.scanl f (List.foldl f b l1) l2 := by
  intro l1
  induction l1 with
  | nil =>
    intro l2 b st h
    right
    simpa using h
  | cons x rest ih =>
    intro l2 b st h
    rw [List.cons_append, List.scanl_cons] at h
    rcases List.mem_append.mp h with h1 | h2
    · simp only [List.mem_singleton] at h1
      subst h1
      left
      rw [List.scanl_cons]
      exact List.mem_append.mpr (Or.inl (by simp))
    · rcases ih l2 (f b x) st h2 with h3 | h3
      · left
        rw [List.scanl_cons]
        exact List.mem_append.mpr (Or.inr h3)
      · right
        rw [List.foldl_cons]
        exact h3

theorem allSlots_cons (d : Nat) (slots : List DaySlot) (sched : Schedule) :
    allSlots ((d, slots) :: sched) = slots ++ allSlots sched := by
  simp [allSlots]

theorem runDays_error {subm : List String} {tb : Nat → String → Nat} :
    ∀ {rem d : Nat} {pool : String → List String} {used : String → Nat}
      {e : GenError},
      runDays subm tb rem d pool used = .error e → ∃ day, e = .dayFill day := by
  intro rem
  induction rem with
  | zero => intro d pool used e h; simp [runDays] at h
  | succ n ih =>
    intro d pool used e h
    cases hfs : fillSlots subm tb ((d - 1) * 3) 3 pool used [] with
    | none =>
      simp only [runDays, hfs] at h
      exact ⟨d, by simpa using h.symm⟩
    | some res =>
      rcases res with ⟨slots, p2, u2⟩
      simp only [runDays, hfs] at h
      cases hrec : runDays subm tb n (d + 1) p2 u2 with
      | error e2 =>
        rw [hrec] at h
        have he : e2 = e := by simpa using h
        subst he
        exact ih hrec
      | ok sched => rw [hrec] at h; simp at h

theorem runDays_spec {subm : List String} {tb : Nat → String → Nat} :
    ∀ {rem d : Nat} {pool : String → List String} {used : String → Nat}
      {sched : Schedule},
      runDays subm tb rem d pool used = .ok sched →
      sched.map (fun p => p.1) = List.range' d rem ∧
      (∀ p ∈ sched, p.2.length = 3 ∧
        (p.2.map (fun sl => sl.submitterName)).Nodup) ∧
      (∀ sl ∈ allSlots sched, sl.submitterName ∈ subm) ∧
      (∃ pf : String → List String,
        ∀ s, assignedUrls (allSlots sched) s ++ pf s = pool s) := by
  intro rem
  induction rem with
  | zero =>
    intro d pool used sched h
    simp only [runDays, Except.ok.injEq] at h
    subst h
    refine ⟨by simp, by simp, by simp [allSlots], ⟨pool, ?_⟩⟩
    intro s
    simp [allSlots, assignedUrls_nil]
  | succ n ih =>
    intro d pool used sched h
    cases hfs : fillSlots subm tb ((d - 1) * 3) 3 pool used [] with
    | none =>
      simp only [runDays, hfs] at h
      exact Except.noConfusion h
    | some res =>
      rcases res with ⟨slots, p2, u2⟩
      simp only [runDays, hfs] at h
      cases hrec : runDays subm tb n (d + 1) p2 u2 with
      | error e2 => rw [hrec] at h; simp at h
      | ok sched2 =>
        rw [hrec] at h
        have hs : (d, slots) :: sched2 = sched := by simpa using h
        subst hs
        obtain ⟨ihkeys, ihday, ihmem, pf, ihass⟩ := ih hrec
        obtain ⟨hlen, hnd, hmemx, hass, _, _⟩ := fillSlots_spec hfs
        refine ⟨?_, ?_, ?_, ⟨pf, ?_⟩⟩
        · rw [List.map_cons, ihkeys, List.range'_succ]
        · intro p hp
          rcases List.mem_cons.mp hp with rfl | hp2
          · exact ⟨hlen, hnd⟩
          · exact ihday p hp2
        · intro sl hsl
          rw [allSlots_cons] at hsl
          rcases List.mem_append.mp hsl with h1 | h2
          · exact (hmemx sl.submitterName (List.mem_map.mpr ⟨sl, h1, rfl⟩)).1
          · exact ihmem sl h2
        · intro s
          rw [allSlots_cons, assignedUrls_append, List.append_assoc, ihass s,
            hass s]
  
theorem runDays_spread {subm : List String} {tb : Nat → String → Nat} :
    ∀ {rem d : Nat} {pool : String → List String} {used : String → Nat}
      {sched : Schedule},
      runDays subm tb rem d pool used = .ok sched →
      (∀ s ∈ subm, rem ≤ (pool s).length) →
      spreadLe1 subm used →
      ∀ st ∈ List.scanl applySlot (pool, used) (allSlots sched),
        spreadLe1 subm st.2 := by
  intro rem
  induction rem with
  | zero =>
    intro d pool used sched h hlen hspread st hst
    simp only [runDays, Except.ok.injEq] at h
    subst h
    simp only [allSlots, List.map_nil, List.flatten_nil, List.scanl_nil,
      List.mem_singleton] at hst
    subst hst
    exact hspread
  | succ n ih =>
    intro d pool used sched h hlen hspread st hst
    cases hfs : fillSlots subm tb ((d - 1) * 3) 3 pool used [] with
    | none =>
      simp only [runDays, hfs] at h
      exact Except.noConfusion h
    | some res =>
      rcases res with ⟨slots, p2, u2⟩
      simp only [runDays, hfs] at h
      cases hrec : runDays subm tb n (d + 1) p2 u2 with
      | error e2 => rw [hrec] at h; simp at h
      | ok sched2 =>
        rw [hrec] at h
        have hs : (d, slots) :: sched2 = sched := by simpa using h
        subst hs
        have hpool : ∀ s ∈ subm, s ∉ ([] : List String) → pool s ≠ [] := by
          intro s hsm _
          have := hlen s hsm
          intro hc
          rw [hc] at this
          simp at this
        obtain ⟨hday, hinv2⟩ := fillSlots_spread hfs (invMid_nil hspread) hpool
        have hspread2 : spreadLe1 subm u2 := invMid_spread hinv2
        have hlen2 : ∀ s ∈ subm, n ≤ (p2 s).length := by
          intro s hsm
          have h1 := fillSlots_len hfs s
          have h2 := hlen s hsm
          omega
        rw [allSlots_cons] at hst
        rcases scanl_append_mem applySlot slots (allSlots sched2) (pool, used) st hst
          with h1 | h2
        · exact hday st h1
        · obtain ⟨_, _, _, _, _, hfold⟩ := fillSlots_spec hfs
          rw [← hfold] at h2
          exact ih hrec hlen2 hspread2 st h2

/-! Characterization of the run of generateCalendar. -/

theorem gen_unfold (subs : List Submission) (r : String → Nat → Nat)
    (tb : Nat → String → Nat) (days : Nat) :
    generateCalendar subs r tb days =
      if (submittersOf subs).length < 3 then .error .insufficientSubmitters
      else if specTotalLinks subs < days * 3 then .error .insufficientLinks
      else runDays (submittersOf subs) tb days 1
        (fun s => initQueue subs r s) (fun _ => 0) := by
  unfold generateCalendar genFromPool
  rw [buildPools_keys, countTotalLinks_buildPools, countTotalLinks_raw]
  rfl

theorem gen_error_submitters_iff (subs : List Submission) (r : String → Nat → Nat)
    (tb : Nat → String → Nat) (days : Nat) :
    generateCalendar subs r tb days = .error .insufficientSubmitters ↔
      (specEligibleNames subs).card < 3 := by
  rw [gen_unfold, specEligible_card]
  by_cases h1 : (submittersOf subs).length < 3
  · simp [h1]
  · rw [if_neg h1]
    by_cases h2 : specTotalLinks subs < days * 3
    · rw [if_pos h2]
      constructor
      · intro hc
        injection hc with h3
        exact GenError.noConfusion h3
      · intro hc
        exact absurd hc h1
    · rw [if_neg h2]
      constructor
      · intro hc
        rcases runDays_error hc with ⟨day, hday⟩
        exact GenError.noConfusion hday
      · intro hc
        exact absurd hc h1

theorem gen_error_links_iff (subs : List Submission) (r : String → Nat → Nat)
    (tb : Nat → String → Nat) (days : Nat) :
    generateCalendar subs r tb days = .error .insufficientLinks ↔
      (3 ≤ (specEligibleNames subs).card ∧ specTotalLinks subs < days * 3) := by
  rw [gen_unfold, specEligible_card]
  by_cases h1 : (submittersOf subs).length < 3
  · rw [if_pos h1]
    constructor
    · intro hc
      injection hc with h3
      exact GenError.noConfusion h3
    · intro hc
      omega
  · rw [if_neg h1]
    by_cases h2 : specTotalLinks subs < days * 3
    · rw [if_pos h2]
      exact ⟨fun _ => ⟨by omega, h2⟩, fun _ => rfl⟩
    · rw [if_neg h2]
      constructor
      · intro hc
        rcases runDays_error hc with ⟨day, hday⟩
        exact GenError.noConfusion hday
      · intro hc
        exact absurd hc.2 h2

theorem gen_ok_runDays {subs : List Submission} {r : String → Nat → Nat}
    {tb : Nat → String → Nat} {days : Nat} {sched : Schedule}
    (h : generateCalendar subs r tb days = .ok sched) :
    runDays (submittersOf subs) tb days 1
      (fun s => initQueue subs r s) (fun _ => 0) = .ok sched := by
  rw [gen_unfold] at h
  by_cases h1 : (submittersOf subs).length < 3
  · rw [if_pos h1] at h; exact Except.noConfusion h
  · rw [if_neg h1] at h
    by_cases h2 : specTotalLinks subs < days * 3
    · rw [if_pos h2] at h; exact Except.noConfusion h
    · rw [if_neg h2] at h; exact h

/-! Day-Gate lemmas. -/

theorem isAccessible_iff (cm tm today d : Nat) :
    isAccessible cm tm today d = true ↔ tm < cm ∨ (cm = tm ∧ d ≤ today) := by
  unfold isAccessible
  by_cases h1 : tm < cm
  · simp [h1]
  · rw [if_neg h1]
    by_cases h2 : cm = tm
    · simp [h2, h1]
    · simp [h2, h1]

theorem find_mapRange {β : Type} (g : Nat → β) :
    ∀ (l : List Nat) (d : Nat), d ∈ l →
      (l.map (fun x => (x, g x))).find? (fun p => p.1 == d) = some (d, g d) := by
  intro l
  induction l with
  | nil => intro d h; simp at h
  | cons x rest ih =>
    intro d h
    rw [List.map_cons]
    by_cases hxd : x = d
    · subst hxd
      rw [List.find?_cons_of_pos]
      simp
    · rw [List.find?_cons_of_neg]
      · rcases List.mem_cons.mp h with rfl | h2
        · exact absurd rfl hxd
        · exact ih d h2
      · simp [hxd]

theorem lookupOut_apiCalendar (cal : Calendar) (cm today d : Nat)
    (h1 : 1 ≤ d) (h2 : d ≤ maxDay cal) :
    lookupOut (apiCalendar cal cm today) d = some (gateDay cal cm today d) := by
  unfold lookupOut apiCalendar
  rw [find_mapRange (fun x => gateDay cal cm today x) (List.range' 1 (maxDay cal)) d
    (by rw [List.mem_range'_1]; omega)]
  rfl

theorem lookupOut2_apiCalendar2 (cal : Calendar) (subsFile : List Sub2)
    (cm today d : Nat) (h1 : 1 ≤ d) (h2 : d ≤ maxDay cal) :
    lookupOut2 (apiCalendar2 cal subsFile cm today) d =
      some (gateDay2 cal subsFile cm today d (maxDay cal)) := by
  unfold lookupOut2 apiCalendar2
  rw [find_mapRange (fun x => gateDay2 cal subsFile cm today x (maxDay cal))
    (List.range' 1 (maxDay cal)) d (by rw [List.mem_range'_1]; omega)]
  rfl

theorem init_le_foldl_max : ∀ (l : List Nat) (a : Nat), a ≤ l.foldl max a := by
  intro l
  induction l with
  | nil => intro a; exact Nat.le_refl a
  | cons x rest ih =>
    intro a
    rw [List.foldl_cons]
    exact Nat.le_trans (Nat.le_max_left a x) (ih (max a x))

theorem le_foldl_max : ∀ (l : List Nat) (a x : Nat), x ∈ l → x ≤ l.foldl max a := by
  intro l
  induction l with
  | nil => intro a x h; simp at h
  | cons y rest ih =>
    intro a x h
    rw [List.foldl_cons]
    rcases List.mem_cons.mp h with rfl | h2
    · exact Nat.le_trans (Nat.le_max_right a x) (init_le_foldl_max rest (max a x))
    · exact ih (max a y) x h2

theorem foldl_max_mem : ∀ (l : List Nat) (a : Nat),
    l.foldl max a = a ∨ l.foldl max a ∈ l := by
  intro l
  induction l with
  | nil => intro a; left; rfl
  | cons x rest ih =>
    intro a
    rw [List.foldl_cons]
    rcases ih (max a x) with h | h
    · rw [h]
      rcases Nat.le_total a x with hax | hxa
      · right
        rw [Nat.max_eq_right hax]
        exact List.mem_cons_self x rest
      · left
        rw [Nat.max_eq_left hxa]
    · right
      exact List.mem_cons_of_mem x h

theorem maxDay_nil : maxDay [] = 24 := rfl

theorem maxDay_mem {cal : Calendar} (h : cal ≠ []) :
    maxDay cal ∈ cal.map (fun p => p.1) := by
  unfold maxDay
  have hk : cal.map (fun p => p.1) ≠ [] := by
    intro hc
    exact h (List.map_eq_nil_iff.mp hc)
  rw [if_neg hk]
  rcases foldl_max_mem (cal.map (fun p => p.1)) 0 with h1 | h1
  · rw [h1]
    cases hck : cal.map (fun p => p.1) with
    | nil => exact absurd hck hk
    | cons k ks =>
      rw [hck] at h1
      have hle : k ≤ 0 := by
        have := le_foldl_max (k :: ks) 0 k (List.mem_cons_self k ks)
        omega
      have hk0 : k = 0 := Nat.le_zero.mp hle
      rw [← hk0]
      exact List.mem_cons_self k ks
  · exact h1

theorem le_maxDay {cal : Calendar} {k : Nat} (h : k ∈ cal.map (fun p => p.1)) :
    k ≤ maxDay cal := by
  unfold maxDay
  have hk : cal.map (fun p => p.1) ≠ [] := by
    intro hc
    rw [hc] at h
    exact absurd h (List.not_mem_nil k)
  rw [if_neg hk]
  exact le_foldl_max _ 0 k h

theorem gateDay_missing {cal : Calendar} {cm today d : Nat}
    (h : lookupDay cal d = none) : gateDay cal cm today d = redactedServer := by
  unfold gateDay
  rw [h]

theorem gateDay_falsy {cal : Calendar} {cm today d : Nat} {dd : JVal}
    (h : lookupDay cal d = some dd) (ht : jTruthy dd = false) :
    gateDay cal cm today d = redactedServer := by
  unfold gateDay
  rw [h]
  simp [ht]

theorem gateDay_present {cal : Calendar} {cm today d : Nat} {dd : JVal}
    (h : lookupDay cal d = some dd) (ht : jTruthy dd = true) :
    gateDay cal cm today d =
      if isAccessible cm serverTargetMonth today d then sanitizeDayData dd
      else redactedServer := by
  unfold gateDay
  rw [h]
  simp [ht]

/-! Multiset accounting for the assigned links. -/

theorem url_mem_assigned {slots : List DaySlot} {sl : DaySlot} (h : sl ∈ slots) :
    sl.url ∈ assignedUrls slots sl.submitterName :=
  List.mem_map.mpr ⟨sl, List.mem_filter.mpr ⟨h, by simp⟩, rfl⟩

theorem sum_map_zero (l : List String) :
    (l.map (fun _ => (0 : Multiset String))).sum = 0 := by
  induction l with
  | nil => rfl
  | cons x rest ih => simp [ih]

theorem bucket_insert {subm : List String} (hnd : subm.Nodup) {nm : String}
    (hmem : nm ∈ subm) (u : String) (A : String → List String) :
    (subm.map (fun s =>
      ((if nm = s then u :: A s else A s : List String) : Multiset String))).sum =
      u ::ₘ (subm.map (fun s => (A s : Multiset String))).sum := by
  induction subm with
  | nil => simp at hmem
  | cons h t ih =>
    rw [List.nodup_cons] at hnd
    rcases List.mem_cons.mp hmem with rfl | hmem2
    · rw [List.map_cons, List.map_cons, List.sum_cons, List.sum_cons, if_pos rfl]
      have hcong : t.map (fun s =>
          ((if nm = s then u :: A s else A s : List String) : Multiset String)) =
          t.map (fun s => (A s : Multiset String)) := by
        apply List.map_congr_left
        intro s hs
        rw [if_neg (fun hc : nm = s => hnd.1 (hc ▸ hs))]
      rw [hcong, ← Multiset.cons_coe, Multiset.cons_add]
    · rw [List.map_cons, List.map_cons, List.sum_cons, List.sum_cons,
        if_neg (fun hc : nm = h => hnd.1 (hc ▸ hmem2)), ih hnd.2 hmem2]
      rw [Multiset.add_cons]

theorem slots_urls_partition :
    ∀ (slots : List DaySlot) (subm : List String), subm.Nodup →
      (∀ sl ∈ slots, sl.submitterName ∈ subm) →
      ((slots.map (fun sl => sl.url) : List String) : Multiset String) =
        (subm.map (fun s => (assignedUrls slots s : Multiset String))).sum := by
  intro slots
  induction slots with
  | nil =>
    intro subm hnd hmem
    have : subm.map (fun s => (assignedUrls [] s : Multiset String)) =
        subm.map (fun _ => (0 : Multiset String)) := by
      apply List.map_congr_left
      intro s hs
      rw [assignedUrls_nil]
      rfl
    rw [this, sum_map_zero]
    rfl
  | cons sl rest ih =>
    intro subm hnd hmem
    have hcong : subm.map (fun s => (assignedUrls (sl :: rest) s : Multiset String)) =
        subm.map (fun s =>
          ((if sl.submitterName = s then sl.url :: assignedUrls rest s
            else assignedUrls rest s : List String) : Multiset String)) := by
      apply List.map_congr_left
      intro s hs
      rw [assignedUrls_cons]
    rw [List.map_cons, hcong,
      bucket_insert hnd (hmem sl (List.mem_cons_self sl rest)) sl.url
        (fun s => assignedUrls rest s),
      ← ih subm hnd (fun x hx => hmem x (List.mem_cons_of_mem sl hx))]
    rfl

theorem list_multiset_sum_le {l : List String} {f g : String → Multiset String}
    (h : ∀ s ∈ l, f s ≤ g s) : (l.map f).sum ≤ (l.map g).sum := by
  induction l with
  | nil => exact le_refl _
  | cons x rest ih =>
    rw [List.map_cons, List.map_cons, List.sum_cons, List.sum_cons]
    exact add_le_add (h x (List.mem_cons_self x rest))
      (ih (fun s hs => h s (List.mem_cons_of_mem x hs)))

/-! Lemmas for the banger special case of the earlier endpoint variant. -/

theorem gateDay2_present {cal : Calendar} {subsFile : List Sub2}
    {cm today maxD : Nat} {dd : JVal}
    (hl : lookupDay cal maxD = some dd) (ht : jTruthy dd = true)
    (hacc : isAccessible cm part000TargetMonth today maxD = true) :
    gateDay2 cal subsFile cm today maxD maxD =
      if 0 < (allBangers subsFile).length then JVal.arr (allBangers subsFile)
      else dd := by
  unfold gateDay2
  rw [hl]
  simp [ht, hacc]

theorem allBangers_ne_nil_iff (subsFile : List Sub2) :
    allBangers subsFile ≠ [] ↔
      ∃ sub ∈ subsFile, jsTrim sub.name ≠ "" ∧ jsTrim sub.banger ≠ "" := by
  constructor
  · intro h
    cases hb : allBangers subsFile with
    | nil => exact absurd hb h
    | cons it rest =>
      have hit : it ∈ allBangers subsFile := hb ▸ List.mem_cons_self it rest
      rcases List.mem_filterMap.mp hit with ⟨sub, hsub, hf⟩
      by_cases hc : jsTrim sub.name ≠ "" ∧ jsTrim sub.banger ≠ ""
      · exact ⟨sub, hsub, hc⟩
      · dsimp only at hf
        rw [if_neg hc] at hf
        exact Option.noConfusion hf
  · rintro ⟨sub, hsub, h1, h2⟩
    intro hc
    have : (JItem.obj (some (jsTrim sub.banger)) (some (jsTrim sub.name)) []) ∈
        allBangers subsFile := by
      apply List.mem_filterMap.mpr
      refine ⟨sub, hsub, ?_⟩
      dsimp only
      rw [if_pos (show jsTrim sub.name ≠ "" ∧ jsTrim sub.banger ≠ "" from ⟨h1, h2⟩)]
    rw [hc] at this
    exact absurd this (List.not_mem_nil _)

/-! The claims. -/

/-- Claim C1: whenever generateCalendar returns a schedule, that schedule
maps each day 1..requiredDays to exactly three DaySlots whose submitter
names are pairwise distinct. -/
theorem c1_schedule_shape (subs : List Submission) (r : String → Nat → Nat)
    (tb : Nat → String → Nat) (days : Nat) (sched : Schedule)
    (h : generateCalendar subs r tb days = .ok sched) :
    sched.map (fun p => p.1) = List.range' 1 days ∧
      ∀ p ∈ sched, p.2.length = 3 ∧
        (p.2.map (fun sl => sl.submitterName)).Nodup := by
  obtain ⟨hkeys, hday, _, _⟩ := runDays_spec (gen_ok_runDays h)
  exact ⟨hkeys, hday⟩

/-- Witness for claim C1 at Example 1 of the specification: three
submitters of two links each, two days. -/
theorem c1_schedule_shape_witness :
    generateCalendar exThree rIdent tbZero 2 = .ok exThreeSched ∧
      (exThreeSched.map (fun p => p.1) = List.range' 1 2 ∧
        ∀ p ∈ exThreeSched, p.2.length = 3 ∧
          (p.2.map (fun sl => sl.submitterName)).Nodup) :=
  ⟨by rfl, c1_schedule_shape exThree rIdent tbZero 2 exThreeSched (by rfl)⟩

/-- Claim C3: the allocator fails with the insufficient-submitters error
exactly when fewer than three distinct cleaned submitters hold a link, and
otherwise fails with the insufficient-links error exactly when the pooled
link total is below requiredDays times three. -/
theorem c3_admission_checks (subs : List Submission) (r : String → Nat → Nat)
    (tb : Nat → String → Nat) (days : Nat) :
    (generateCalendar subs r tb days = .error .insufficientSubmitters ↔
      (specEligibleNames subs).card < 3) ∧
    (generateCalendar subs r tb days = .error .insufficientLinks ↔
      (3 ≤ (specEligibleNames subs).card ∧ specTotalLinks subs < days * 3)) :=
  ⟨gen_error_submitters_iff subs r tb days, gen_error_links_iff subs r tb days⟩

/-- Witness for claim C3 at Example 2 of the specification (two submitters
only) and at Example 1 cut short of links (six links for twenty-four
days). -/
theorem c3_admission_checks_witness :
    generateCalendar exTwo rIdent tbZero 24 = .error .insufficientSubmitters ∧
      generateCalendar exThree rIdent tbZero 24 = .error .insufficientLinks :=
  ⟨(c3_admission_checks exTwo rIdent tbZero 24).1.mpr
      (by rw [specEligible_card]; decide),
   (c3_admission_checks exThree rIdent tbZero 24).2.mpr
      (by rw [specEligible_card]; exact ⟨by decide, by decide⟩)⟩

/-- Claim C4: a concentrated input passes both global admission checks yet
fails with the day-fill error on day 2, and every allocation run yields
either an error and no schedule or a complete schedule of days
1..requiredDays with three distinct-submitter slots each. -/
theorem c4_dayfill_all_or_nothing :
    generateCalendar exConc rIdent tbZero 4 = .error (.dayFill 2) ∧
    3 ≤ (specEligibleNames exConc).card ∧
    ¬ (specTotalLinks exConc < 4 * 3) ∧
    ∀ (subs : List Submission) (r : String → Nat → Nat)
      (tb : Nat → String → Nat) (days : Nat),
      allOrNothing days (generateCalendar subs r tb days) := by
  refine ⟨by rfl, by rw [specEligible_card]; decide, by decide, ?_⟩
  intro subs r tb days
  cases hres : generateCalendar subs r tb days with
  | error e => rw [allOrNothing]; trivial
  | ok sched =>
    obtain ⟨hkeys, hday, _, _⟩ := runDays_spec (gen_ok_runDays hres)
    rw [allOrNothing]
    exact ⟨hkeys, hday⟩

/-- Claim C6: the allocation depends on the random source only through the
two randomized points, the per-submitter shuffles and the per-slot
tie-break ranks; runs agreeing there produce identical schedules, so a run
is deterministic given a deterministic source. -/
theorem c6_determinism (subs : List Submission) (days : Nat)
    (r r2 : String → Nat → Nat) (tb tb2 : Nat → String → Nat)
    (hshuffle : buildPools subs r = buildPools subs r2)
    (htie : ∀ k s, tb k s = tb2 k s) :
    generateCalendar subs r tb days = generateCalendar subs r2 tb2 days := by
  have htb : tb = tb2 := funext fun k => funext fun s => htie k s
  subst htb
  unfold generateCalendar
  rw [hshuffle]

/-- Witness for claim C6: two distinct shuffle sources that agree after the
Fisher-Yates modulus yield the same schedule. -/
theorem c6_determinism_witness :
    generateCalendar exThree rIdent tbZero 2 =
      generateCalendar exThree rIdent2 tbZero 2 :=
  c6_determinism exThree 2 rIdent rIdent2 tbZero tbZero (by decide)
    (fun _ _ => rfl)

/-- Claim C2 (amended): the submitter getNextSubmitter returns always has
the minimum usage count among the eligible candidates; and provided every
submitter begins with at least requiredDays links, so that no queue is ever
exhausted, the usage counts across all submitters differ by at most one at
every state the allocation passes through, the final state included. The
guard of the original claim, that at least three submitters keep links
throughout, is not enough: a submitter whose queue empties can be left
behind while the others advance. -/
theorem c2_balance_amended (subs : List Submission) (r : String → Nat → Nat)
    (tb : Nat → String → Nat) (days : Nat) (sched : Schedule)
    (hok : generateCalendar subs r tb days = .ok sched)
    (hlen : ∀ s ∈ submittersOf subs, days ≤ (initQueue subs r s).length) :
    (∀ st ∈ List.scanl applySlot (initState subs r) (allSlots sched),
      spreadLe1 (submittersOf subs) st.2) ∧
    (∀ (pool : String → List String) (used : String → Nat)
      (tb2 : String → Nat) (ex : List String) (y : String),
      getNextSubmitter (submittersOf subs) pool used tb2 ex = some y →
      y ∈ submittersOf subs ∧ y ∉ ex ∧ pool y ≠ [] ∧
        ∀ t ∈ submittersOf subs, t ∉ ex → pool t ≠ [] → used y ≤ used t) := by
  constructor
  · exact runDays_spread (gen_ok_runDays hok) hlen
      (fun s _ t _ => Nat.le_add_right 0 1)
  · intro pool used tb2 ex y h
    exact getNextSubmitter_spec h

/-- Witness for the amended claim C2 at Example 1 of the specification. -/
theorem c2_balance_amended_witness :
    (∀ st ∈ List.scanl applySlot (initState exThree rIdent) (allSlots exThreeSched),
      spreadLe1 (submittersOf exThree) st.2) ∧
    (∀ (pool : String → List String) (used : String → Nat)
      (tb2 : String → Nat) (ex : List String) (y : String),
      getNextSubmitter (submittersOf exThree) pool used tb2 ex = some y →
      y ∈ submittersOf exThree ∧ y ∉ ex ∧ pool y ≠ [] ∧
        ∀ t ∈ submittersOf exThree, t ∉ ex → pool t ≠ [] → used y ≤ used t) :=
  c2_balance_amended exThree rIdent tbZero 2 exThreeSched (by rfl) (by decide)

/-- Counterexample to claim C2 as stated: on exGap the allocation succeeds,
at least three submitters hold links at every state of the run, yet the
usage counts do not stay within one of each other: A exhausts its single
link on day 1 and ends two uses behind B and C. -/
theorem c2_balance_cex :
    generateCalendar exGap rIdent tbZero 3 = .ok exGapSched ∧
    (∀ st ∈ List.scanl applySlot (initState exGap rIdent) (allSlots exGapSched),
      3 ≤ numWithLinks (submittersOf exGap) st.1) ∧
    ¬ (∀ st ∈ List.scanl applySlot (initState exGap rIdent) (allSlots exGapSched),
      spreadLe1 (submittersOf exGap) st.2) :=
  ⟨by rfl, by decide, by decide⟩

/-- Claim C7: each assigned link comes off the head of the shuffled queue
of its submitter, so the per-submitter assignments form an initial segment
of that queue; per submitter the assigned links are a sub-multiset of the
original cleaned pool; every slot url lies in the pool of the submitter it
names; globally the multiset of assigned urls is bounded by the combined
pools; and the raw pool of a name holds exactly the cleaned links of the
submissions bearing that name. -/
theorem c7_links_conservation (subs : List Submission) (r : String → Nat → Nat)
    (tb : Nat → String → Nat) (days : Nat) (sched : Schedule)
    (h : generateCalendar subs r tb days = .ok sched) :
    (∃ rem : String → List String, ∀ s,
      assignedUrls (allSlots sched) s ++ rem s = initQueue subs r s) ∧
    (∀ s, ((assignedUrls (allSlots sched) s : List String) : Multiset String) ≤
      ((rawQueue subs s : List String) : Multiset String)) ∧
    (∀ sl ∈ allSlots sched, sl.url ∈ rawQueue subs sl.submitterName) ∧
    (((allSlots sched).map (fun sl => sl.url) : List String) : Multiset String) ≤
      ((submittersOf subs).map
        (fun s => ((rawQueue subs s : List String) : Multiset String))).sum ∧
    (∀ s x, x ∈ rawQueue subs s ↔
      ∃ sub ∈ subs, jsTrim sub.name = s ∧ s ≠ "" ∧ x ∈ cleanedVideos sub) := by
  obtain ⟨_, _, hnames, pf, hass⟩ := runDays_spec (gen_ok_runDays h)
  have hperm : ∀ s, ((assignedUrls (allSlots sched) s : List String) : Multiset String) ≤
      ((rawQueue subs s : List String) : Multiset String) := by
    intro s
    have h1 := hass s
    have h2 : ((initQueue subs r s : List String) : Multiset String) =
        ((rawQueue subs s : List String) : Multiset String) :=
      Multiset.coe_eq_coe.mpr (initQueue_perm_rawQueue subs r s)
    calc ((assignedUrls (allSlots sched) s : List String) : Multiset String)
        ≤ ((assignedUrls (allSlots sched) s : List String) : Multiset String) +
            ((pf s : List String) : Multiset String) := Multiset.le_add_right _ _
      _ = ((initQueue subs r s : List String) : Multiset String) := by
          rw [← h1, Multiset.coe_add]
      _ = _ := h2
  refine ⟨⟨pf, hass⟩, hperm, ?_, ?_, fun s x => mem_rawQueue subs s x⟩
  · intro sl hsl
    have h1 : sl.url ∈ assignedUrls (allSlots sched) sl.submitterName :=
      url_mem_assigned hsl
    have h2 : sl.url ∈ initQueue subs r sl.submitterName := by
      have := hass sl.submitterName
      rw [← this]
      exact List.mem_append.mpr (Or.inl h1)
    exact ((initQueue_perm_rawQueue subs r sl.submitterName).mem_iff).mp h2
  · rw [slots_urls_partition (allSlots sched) (submittersOf subs)
      (submittersOf_nodup subs) hnames]
    exact list_multiset_sum_le (fun s _ => hperm s)

/-- Witness for claim C7 at Example 1 of the specification. -/
theorem c7_links_conservation_witness :
    (∃ rem : String → List String, ∀ s,
      assignedUrls (allSlots exThreeSched) s ++ rem s = initQueue exThree rIdent s) ∧
    (∀ s, ((assignedUrls (allSlots exThreeSched) s : List String) : Multiset String) ≤
      ((rawQueue exThree s : List String) : Multiset String)) ∧
    (∀ sl ∈ allSlots exThreeSched, sl.url ∈ rawQueue exThree sl.submitterName) ∧
    (((allSlots exThreeSched).map (fun sl => sl.url) : List String) : Multiset String) ≤
      ((submittersOf exThree).map
        (fun s => ((rawQueue exThree s : List String) : Multiset String))).sum ∧
    (∀ s x, x ∈ rawQueue exThree s ↔
      ∃ sub ∈ exThree, jsTrim sub.name = s ∧ s ≠ "" ∧ x ∈ cleanedVideos sub) :=
  c7_links_conservation exThree rIdent tbZero 2 exThreeSched (by rfl)

/-- Claim C5: the server.js Day-Gate emits exactly days 1..maxDay, marks a
stored day visible exactly when the current zero-indexed month exceeds the
target month or equals it with the day at most today, emits only the
redacted sentinel whenever the current month is before the target month,
and maxDay is the greatest numeric day key with fallback 24. The
comparison uses only month indices and day numbers; no year enters the
model, matching the source which reads only getMonth and getDate. -/
theorem c5_day_gate (cal : Calendar) (cm today : Nat) :
    ((apiCalendar cal cm today).map (fun p => p.1) =
      List.range' 1 (maxDay cal)) ∧
    (∀ d dd, 1 ≤ d → d ≤ maxDay cal → lookupDay cal d = some dd →
      jTruthy dd = true →
      lookupOut (apiCalendar cal cm today) d =
        some (if serverTargetMonth < cm ∨ (cm = serverTargetMonth ∧ d ≤ today)
          then sanitizeDayData dd else redactedServer)) ∧
    (cm < serverTargetMonth →
      ∀ d v, (d, v) ∈ apiCalendar cal cm today → v = redactedServer) ∧
    (cal = [] → maxDay cal = 24) ∧
    (cal ≠ [] → maxDay cal ∈ cal.map (fun p => p.1) ∧
      ∀ k ∈ cal.map (fun p => p.1), k ≤ maxDay cal) := by
  refine ⟨?_, ?_, ?_, ?_, ?_⟩
  · unfold apiCalendar
    rw [List.map_map]
    have : ((fun p => p.1) ∘ fun d => (d, gateDay cal cm today d)) = id := rfl
    rw [this, List.map_id]
  · intro d dd h1 h2 hl ht
    rw [lookupOut_apiCalendar cal cm today d h1 h2, gateDay_present hl ht]
    by_cases hacc : serverTargetMonth < cm ∨ (cm = serverTargetMonth ∧ d ≤ today)
    · rw [if_pos ((isAccessible_iff cm serverTargetMonth today d).mpr hacc),
        if_pos hacc]
    · rw [if_neg (fun hc => hacc ((isAccessible_iff cm serverTargetMonth today d).mp hc)),
        if_neg hacc]
  · intro hcm d v hmem
    unfold apiCalendar at hmem
    rcases List.mem_map.mp hmem with ⟨d0, hd0, heq⟩
    have hv : v = gateDay cal cm today d0 := by
      have := congrArg Prod.snd heq
      simpa using this.symm
    subst hv
    cases hl : lookupDay cal d0 with
    | none => exact gateDay_missing hl
    | some dd =>
      cases ht : jTruthy dd with
      | false => exact gateDay_falsy hl ht
      | true =>
        rw [gateDay_present hl ht]
        rw [if_neg]
        intro hc
        rcases (isAccessible_iff cm serverTargetMonth today d0).mp hc with h1 | h1
        · omega
        · omega
  · intro hnil
    rw [hnil]
    rfl
  · intro hne
    exact ⟨maxDay_mem hne, fun k hk => le_maxDay hk⟩

/-- Witness for claim C5 on a concrete two-day calendar inside the target
month with today equal to 1: day 1 is served sanitized, day 2 redacted. -/
theorem c5_day_gate_witness :
    lookupOut (apiCalendar exCal 11 1) 1 =
      some (if serverTargetMonth < 11 ∨ (11 = serverTargetMonth ∧ 1 ≤ 1)
        then sanitizeDayData (JVal.arr
          [JItem.obj (some "u1") (some "Alice") [("note", "x")]])
        else redactedServer) :=
  (c5_day_gate exCal 11 1).2.1 1
    (JVal.arr [JItem.obj (some "u1") (some "Alice") [("note", "x")]])
    (by decide) (by decide) (by rfl) (by rfl)

/-- Counterexample to claim C8 as stated: for a visible stored day the
server.js gate emits objects holding only the url; the submitter name
present in the stored slot is not carried through, contrary to the claim
that exactly the link and submitter-name fields are emitted. -/
theorem c8_strip_cex :
    gateDay exCal 11 1 1 = [JItem.obj (some "u1") none []] ∧
    gateDay exCal 11 1 1 ≠
      [JItem.obj (some "u1") (some "Alice") []] := by
  constructor
  · rfl
  · intro hc
    have : ([JItem.obj (some "u1") none []] : List JItem) =
        [JItem.obj (some "u1") (some "Alice") []] := by
      rw [← hc]
      rfl
    simp at this

/-- Claim C8 (amended): for a visible stored day the server.js gate emits,
per stored item, an object carrying exactly the url field (the empty
string when the item has no string url), stripping the submitter name and
every other field; a day that is not visible is emitted as the
single-element redacted sentinel. -/
theorem c8_strip_amended (cal : Calendar) (cm today d : Nat)
    (items : List JItem) (h1 : 1 ≤ d) (h2 : d ≤ maxDay cal)
    (hl : lookupDay cal d = some (JVal.arr items)) :
    lookupOut (apiCalendar cal cm today) d =
      some (if isAccessible cm serverTargetMonth today d
        then items.map (fun it => JItem.obj (some (itemUrlString it)) none [])
        else redactedServer) := by
  rw [lookupOut_apiCalendar cal cm today d h1 h2, gateDay_present hl rfl]
  cases hacc : isAccessible cm serverTargetMonth today d with
  | true => rw [if_pos rfl, if_pos rfl]; rfl
  | false =>
    rw [if_neg (by simp), if_neg (by simp)]

/-- Witness for the amended claim C8 at the concrete calendar: the stored
submitter name and the extra field are both stripped. -/
theorem c8_strip_amended_witness :
    lookupOut (apiCalendar exCal 11 1) 1 =
      some (if isAccessible 11 serverTargetMonth 1 1
        then [JItem.obj (some "u1") (some "Alice") [("note", "x")]].map
          (fun it => JItem.obj (some (itemUrlString it)) none [])
        else redactedServer) :=
  c8_strip_amended exCal 11 1 1
    [JItem.obj (some "u1") (some "Alice") [("note", "x")]]
    (by decide) (by decide) (by rfl)

/-- Counterexample to claim C9 as stated: a stored day holding a truthy
non-array value that is visible is emitted as the empty list, not as the
locked redacted sentinel the claim promises for malformed data. -/
theorem c9_malformed_cex :
    lookupOut (apiCalendar exCalBad 11 5) 1 = some ([] : List JItem) ∧
    (some ([] : List JItem)) ≠ some redactedServer := by
  constructor
  · rfl
  · intro hc
    simp [redactedServer] at hc

/-- Claim C9 (amended): a day 1..maxDay with no stored entry is emitted as
the locked sentinel whatever the current date; the gate is total on
malformed per-day data, a falsy stored value degrading to the sentinel
while a truthy non-array value yields the empty list when visible and the
sentinel otherwise. -/
theorem c9_degrade_amended (cal : Calendar) (cm today d : Nat) :
    (1 ≤ d → d ≤ maxDay cal → lookupDay cal d = none →
      lookupOut (apiCalendar cal cm today) d = some redactedServer) ∧
    (∀ b, 1 ≤ d → d ≤ maxDay cal → lookupDay cal d = some (JVal.other b) →
      lookupOut (apiCalendar cal cm today) d =
        some (if b && isAccessible cm serverTargetMonth today d
          then ([] : List JItem) else redactedServer)) := by
  constructor
  · intro h1 h2 hl
    rw [lookupOut_apiCalendar cal cm today d h1 h2, gateDay_missing hl]
  · intro b h1 h2 hl
    rw [lookupOut_apiCalendar cal cm today d h1 h2]
    cases b with
    | false =>
      rw [gateDay_falsy hl rfl]
      rfl
    | true =>
      rw [gateDay_present hl rfl]
      cases hacc : isAccessible cm serverTargetMonth today d with
      | true => rw [if_pos rfl]; rfl
      | false => rw [if_neg (by simp)]; rfl

/-- Claim C10: in the earlier endpoint variant, when the last day is
stored, truthy and visible, the emitted value for it is the full banger
list built from the submissions file whenever at least one submission has
a non-empty trimmed name and banger, and the stored day data unchanged
otherwise. -/
theorem c10_banger_day (cal : Calendar) (subsFile : List Sub2)
    (cm today : Nat) (dd : JVal) (h1 : 1 ≤ maxDay cal)
    (hl : lookupDay cal (maxDay cal) = some dd) (ht : jTruthy dd = true)
    (hacc : isAccessible cm part000TargetMonth today (maxDay cal) = true) :
    (allBangers subsFile ≠ [] →
      lookupOut2 (apiCalendar2 cal subsFile cm today) (maxDay cal) =
        some (JVal.arr (allBangers subsFile))) ∧
    (allBangers subsFile = [] →
      lookupOut2 (apiCalendar2 cal subsFile cm today) (maxDay cal) = some dd) ∧
    (allBangers subsFile ≠ [] ↔
      ∃ sub ∈ subsFile, jsTrim sub.name ≠ "" ∧ jsTrim sub.banger ≠ "") := by
  have hmax := lookupOut2_apiCalendar2 cal subsFile cm today (maxDay cal) h1
    (Nat.le_refl _)
  rw [gateDay2_present hl ht hacc] at hmax
  refine ⟨?_, ?_, allBangers_ne_nil_iff subsFile⟩
  · intro hne
    rw [hmax, if_pos (List.length_pos.mpr hne)]
  · intro hnil
    rw [hmax, if_neg (by rw [hnil]; simp)]

/-- Witness for claim C10 on a concrete calendar with greatest day 2 and a
submissions file holding two qualifying bangers. -/
theorem c10_banger_day_witness :
    (allBangers exSubs2 ≠ [] →
      lookupOut2 (apiCalendar2 exCal2 exSubs2  9 5) (maxDay exCal2) =
        some (JVal.arr (allBangers exSubs2))) ∧
    (allBangers exSubs2 = [] →
      lookupOut2 (apiCalendar2 exCal2 exSubs2 9 5) (maxDay exCal2) =
        some (JVal.arr [JItem.obj (some "u2") (some "N2") []])) ∧
    (allBangers exSubs2 ≠ [] ↔
      ∃ sub ∈ exSubs2, jsTrim sub.name ≠ "" ∧ jsTrim sub.banger ≠ "") :=
  c10_banger_day exCal2 exSubs2 9 5
    (JVal.arr [JItem.obj (some "u2") (some "N2") []])
    (by decide) (by rfl) (by rfl) (by decide)

end Tonpere
